import Mathlib

/-!
Verification of the qutils reference pipeline (URL scanner, diagram codec,
cache store, text splicer, per-document orchestrator) against its
natural-language specification.

Modelling conventions:
* Documents, urls, payloads and file paths are lists of characters.
* JSON values reached after the base64 + UTF-8 + JSON.parse transport are
  modelled by the inductive type Json; JSON numbers are modelled by Int
  (the payloads of the reference format carry integral coordinates, node
  counts and offsets; on integers the ToIntegerOrInfinity truncation that
  JavaScript applies to slice arguments is the identity, so it is not
  modelled separately).
  A payload string whose base64 decoding or JSON parsing fails is modelled
  as the value none of type Option Json, so decodeQuiverData takes an
  Option Json.  Every failure of decodeQuiverData is surfaced by the source
  as a DecodeError record with tag decode-error; here failures are Except
  errors carrying the message text.
* Impure collaborators (sha256-based unique id, path.relative, the render
  collaborator, Date.now) are explicit oracle fields of a Collab structure;
  the artifact file system is an explicit list of existing paths.
-/

namespace Qutils

/-- Json models a parsed JSON value (the result of JSON.parse on the
decoded payload bytes).  Object field lists model the own enumerable
properties of the parsed object, so field names are unique in values
produced by the parser. -/
inductive Json where
  | null : Json
  | bool (b : Bool) : Json
  | num (q : Int) : Json
  | str (s : String) : Json
  | arr (elems : List Json) : Json
  | obj (fields : List (String × Json)) : Json

/-- Node mirrors the Node type of src/types: id is the 0-based position in
the wire payload, coordinates are JSON numbers, label a string. -/
structure Node where
  id : Nat
  x : Int
  y : Int
  label : String
deriving DecidableEq, Repr

/-- EdgeStyle mirrors the EdgeStyle type: three optional fields. -/
structure EdgeStyle where
  bodyName : Option String := none
  headName : Option String := none
  offset : Option Int := none
deriving DecidableEq, Repr

/-- Edge mirrors the Edge type: id, numeric source and target, optional
label and style. -/
structure Edge where
  id : Nat
  source : Int
  target : Int
  label : Option String := none
  style : Option EdgeStyle := none
deriving DecidableEq, Repr

/-- MetaD mirrors the optional metadata block of DiagramData. -/
structure MetaD where
  width : Option Int := none
  height : Option Int := none
deriving DecidableEq, Repr

/-- DiagramData mirrors the DiagramData type of src/types. -/
structure DiagramData where
  nodes : List Node
  edges : List Edge
  metadata : Option MetaD := none
deriving DecidableEq, Repr

/-- jsIdx converts one JavaScript Array.prototype.slice index argument to
an absolute list index: negative indices count from the end and everything
is clamped into the range 0..len. -/
def jsIdx (len : Nat) (i : Int) : Nat :=
  if i < 0 then ((len : Int) + i).toNat else min i.toNat len

/-- jsSlice models xs.slice(s, e) of JavaScript. -/
def jsSlice (xs : List α) (s e : Int) : List α :=
  (xs.take (jsIdx xs.length e)).drop (jsIdx xs.length s)

/-- jsSliceFrom models the one-argument xs.slice(s). -/
def jsSliceFrom (xs : List α) (s : Int) : List α :=
  xs.drop (jsIdx xs.length s)

/-- parseNode mirrors parseNode of src/decoder: a node element must be an
array whose elements 0 and 1 are numbers and whose element 2 is a string;
the node id is the element index. -/
def parseNode (nodeData : Json) (index : Nat) : Except String Node :=
  match nodeData with
  | .arr xs =>
    match xs.get? 0, xs.get? 1 with
    | some (.num x), some (.num y) =>
      match xs.get? 2 with
      | some (.str label) => .ok { id := index, x := x, y := y, label := label }
      | _ => .error ("Node at index " ++ toString index ++ " has invalid label")
    | _, _ => .error ("Node at index " ++ toString index ++ " has invalid coordinates")
  | _ => .error ("Node at index " ++ toString index ++ " is not an array")

/-- jget models property lookup on a parsed JSON object. -/
def jget (fields : List (String × Json)) (key : String) : Option Json :=
  (fields.find? (fun p => p.1 == key)).map (fun p => p.2)

/-- parseEdgeStyle mirrors parseEdgeStyle of src/decoder.  A missing,
falsy or non-object options value yields no style; otherwise the three
style fields are collected and an empty style is normalized to none.  An
array options value has none of the three properties, so it also yields
no style. -/
def parseEdgeStyle (options : Option Json) : Option EdgeStyle :=
  match options with
  | some (.obj fields) =>
    let bodyName : Option String :=
      match jget fields "body" with
      | some (.obj bf) =>
        match jget bf "name" with
        | some (.str s) => some s
        | _ => none
      | _ => none
    let headName : Option String :=
      match jget fields "head" with
      | some (.obj hf) =>
        match jget hf "name" with
        | some (.str s) => some s
        | _ => none
      | _ => none
    let offset : Option Int :=
      match jget fields "offset" with
      | some (.num q) => some q
      | _ => none
    if bodyName.isNone && headName.isNone && offset.isNone then none
    else some { bodyName := bodyName, headName := headName, offset := offset }
  | _ => none

/-- parseEdge mirrors parseEdge of src/decoder: an edge element must be an
array with numeric elements 0 and 1; element 2, when present, must be a
string (the empty string is a placeholder and becomes an absent label);
element 3 is fed to parseEdgeStyle.  The edge id is the element index. -/
def parseEdge (edgeData : Json) (index : Nat) : Except String Edge :=
  match edgeData with
  | .arr xs =>
    match xs.get? 0, xs.get? 1 with
    | some (.num source), some (.num target) =>
      match xs.get? 2 with
      | none =>
        .ok { id := index, source := source, target := target,
              label := none, style := parseEdgeStyle (xs.get? 3) }
      | some (.str l) =>
        .ok { id := index, source := source, target := target,
              label := if l = "" then none else some l,
              style := parseEdgeStyle (xs.get? 3) }
      | some _ => .error ("Edge at index " ++ toString index ++ " has invalid label")
    | _, _ =>
      .error ("Edge at index " ++ toString index ++ " has invalid source or target")
  | _ => .error ("Edge at index " ++ toString index ++ " is not an array")

/-- parseItems models Array.prototype.map of an index-aware parser over a
segment of the wire array, with the first thrown error propagated. -/
def parseItems (f : Json → Nat → Except String α) :
    List Json → Nat → Except String (List α)
  | [], _ => .ok []
  | j :: js, i => do
    let a ← f j i
    let as ← parseItems f js (i + 1)
    .ok (a :: as)

/-- decodeQuiverData mirrors decodeQuiverData of src/decoder, taken after
the base64 + JSON.parse transport: the wire value must be an array of
length at least 2, element 1 is the node count, elements 2 .. 2+nodeCount
are node data and the remaining elements are edge data.  A payload whose
base64 decoding or JSON parsing fails is the none case.  Every error value
models a thrown DecodeError (tag decode-error). -/
def decodeQuiverData (payload : Option Json) : Except String DiagramData :=
  match payload with
  | none => .error "Failed to decode Quiver data: invalid base64 or JSON"
  | some parsed =>
    match parsed with
    | .arr xs =>
      if xs.length < 2 then
        .error "Invalid Quiver data format: expected array with at least 2 elements"
      else
        match xs.get? 1 with
        | some (.num nodeCount) => do
          let nodesData := jsSlice xs 2 (2 + nodeCount)
          let edgesData := jsSliceFrom xs (2 + nodeCount)
          let nodes ← parseItems parseNode nodesData 0
          let edges ← parseItems parseEdge edgesData 0
          .ok { nodes := nodes, edges := edges, metadata := none }
        | _ => .error "Invalid Quiver data format: second element must be node count"
    | _ => .error "Invalid Quiver data format: expected array with at least 2 elements"

/-- encodeStyle builds the options object fields for an edge style, in the
source order body, head, offset. -/
def encodeStyle (st : EdgeStyle) : List (String × Json) :=
  (match st.bodyName with
   | some b => [("body", Json.obj [("name", Json.str b)])]
   | none => []) ++
  (match st.headName with
   | some h => [("head", Json.obj [("name", Json.str h)])]
   | none => []) ++
  (match st.offset with
   | some o => [("offset", Json.num o)]
   | none => [])

/-- encodeEdge mirrors the edge serialization of encodeQuiverData: source
and target, then the label only when present and non-empty, then the
options object only when it has at least one field; with options but no
label an empty-string placeholder fills the label slot. -/
def encodeEdge (e : Edge) : Json :=
  let base := [Json.num e.source, Json.num e.target]
  let options : Option Json :=
    match e.style with
    | none => none
    | some st =>
      let fs := encodeStyle st
      if fs.isEmpty then none else some (Json.obj fs)
  match e.label, options with
  | some l, some o =>
    if l = "" then Json.arr (base ++ [Json.str "", o])
    else Json.arr (base ++ [Json.str l, o])
  | some l, none =>
    if l = "" then Json.arr base else Json.arr (base ++ [Json.str l])
  | none, some o => Json.arr (base ++ [Json.str "", o])
  | none, none => Json.arr base

/-- encodeQuiverData mirrors encodeQuiverData of src/decoder: the wire
array is version 0, then the node count, then one [x, y, label] array per
node, then one serialized edge per edge. -/
def encodeQuiverData (data : DiagramData) : Json :=
  Json.arr
    (Json.num 0 :: Json.num (data.nodes.length : Int) ::
      (data.nodes.map (fun n => Json.arr [Json.num n.x, Json.num n.y, Json.str n.label]) ++
       data.edges.map encodeEdge))

/-- validateDiagramData mirrors validateDiagramData of src/decoder for the
typed model: node ids unique, edge ids unique, edge endpoints reference
existing node ids.  The dynamic type checks of the source hold by typing
in this model. -/
def validateDiagramData (data : DiagramData) : Bool :=
  decide ((data.nodes.map fun n => n.id).Nodup) &&
  decide ((data.edges.map fun e => e.id).Nodup) &&
  data.edges.all (fun e =>
    data.nodes.any (fun n => ((n.id : Int) == e.source)) &&
    data.nodes.any (fun n => ((n.id : Int) == e.target)))

/-- posIdsNode checks that node ids equal their 0-based list positions
starting at i, as the data model of the specification assigns them. -/
def posIdsNode : Nat → List Node → Bool
  | _, [] => true
  | i, n :: ns => n.id == i && posIdsNode (i + 1) ns

/-- posIdsEdge checks that edge ids equal their 0-based list positions
starting at i. -/
def posIdsEdge : Nat → List Edge → Bool
  | _, [] => true
  | i, e :: es => e.id == i && posIdsEdge (i + 1) es

/-- emptyStyle is the style value with no fields; the data model
normalizes it to an absent style. -/
def emptyStyle : EdgeStyle := {}

/-- wellFormed captures the well-formedness of a diagram graph per the
data model of the specification: validateDiagramData holds, node and edge
ids are the 0-based positions in the wire payload, a present edge label is
never the empty placeholder string, and a present edge style has at least
one field (an empty style is normalized to absent). -/
def wellFormed (g : DiagramData) : Bool :=
  validateDiagramData g && posIdsNode 0 g.nodes && posIdsEdge 0 g.edges &&
  g.edges.all (fun e => !(e.label == some "") && !(e.style == some emptyStyle))


/-- goodNode states the structural condition under which parseNode
succeeds: an array whose elements 0 and 1 are numbers and whose element 2
is a string. -/
def goodNode (j : Json) : Bool :=
  match j with
  | .arr xs =>
    match xs.get? 0, xs.get? 1 with
    | some (.num _), some (.num _) =>
      match xs.get? 2 with
      | some (.str _) => true
      | _ => false
    | _, _ => false
  | _ => false

/-- goodEdge states the structural condition under which parseEdge
succeeds: an array with numeric elements 0 and 1 whose element 2, when
present, is a string. -/
def goodEdge (j : Json) : Bool :=
  match j with
  | .arr xs =>
    match xs.get? 0, xs.get? 1 with
    | some (.num _), some (.num _) =>
      match xs.get? 2 with
      | none => true
      | some (.str _) => true
      | some _ => false
    | _, _ => false
  | _ => false

/-- decodeOk states the exact success condition of decodeQuiverData: the
payload parses to an array of length at least 2 whose element 1 is a
number, every element of the node segment satisfies goodNode and every
element of the edge segment satisfies goodEdge. -/
def decodeOk (p : Option Json) : Bool :=
  match p with
  | some (.arr xs) =>
    if xs.length < 2 then false
    else
      match xs.get? 1 with
      | some (.num nodeCount) =>
        (jsSlice xs 2 (2 + nodeCount)).all goodNode &&
        (jsSliceFrom xs (2 + nodeCount)).all goodEdge
      | _ => false
  | _ => false

/-- edgeEndpointsNumeric is the edge condition exactly as the claim states
it: the edge element does not lack numeric source and target.  It omits
the label check that parseEdge also performs. -/
def edgeEndpointsNumeric (j : Json) : Bool :=
  match j with
  | .arr xs =>
    match xs.get? 0, xs.get? 1 with
    | some (.num _), some (.num _) => true
    | _, _ => false
  | _ => false

/-- specDecodeFails is the failure condition exactly as claim C7 lists it:
unparseable payload, not an array of length at least 2, second element not
a number, a bad node element, or an edge element lacking numeric source or
target. -/
def specDecodeFails (p : Option Json) : Bool :=
  match p with
  | none => true
  | some (.arr xs) =>
    if xs.length < 2 then true
    else
      match xs.get? 1 with
      | some (.num nodeCount) =>
        !((jsSlice xs 2 (2 + nodeCount)).all goodNode) ||
        !((jsSliceFrom xs (2 + nodeCount)).all edgeEndpointsNumeric)
      | _ => true
  | some _ => true

/-- gEx is a concrete well-formed diagram graph with two nodes and one
labelled, styled edge, used to witness the round-trip law. -/
def gEx : DiagramData :=
  { nodes := [{ id := 0, x := 0, y := 0, label := "A" },
              { id := 1, x := 1, y := 0, label := "B" }],
    edges := [{ id := 0, source := 0, target := 1, label := some "f",
                style := some { bodyName := some "dashed", headName := none,
                                offset := some 2 } }] }

/-- cexC7 is a payload whose only flaw is a numeric edge label: the edge
has numeric source and target, so the failure condition of claim C7 does
not cover it, yet parseEdge rejects it. -/
def cexC7 : Option Json :=
  some (.arr [.num 0, .num 0, .arr [.num 0, .num 1, .num 5]])

/-- Str is the model of JavaScript strings reached by the pipeline:
documents, urls, payloads, slugs and file paths. -/
abbrev Str := List Char

/-- CacheEntry mirrors the CacheEntry type of src/types: url, the encoded
payload last seen at that url, the artifact path written for it, and the
write timestamp. -/
structure CacheEntry where
  url : Str
  encodedData : Str
  imagePath : Str
  timestamp : Nat
deriving DecidableEq, Repr

/-- getCacheEntry mirrors getCacheEntry of src/cache: the first entry
whose url equals the given url. -/
def getCacheEntry (url : Str) (cache : List CacheEntry) : Option CacheEntry :=
  cache.find? (fun e => e.url == url)

/-- addCacheEntry mirrors addCacheEntry of src/cache: all entries for the
same url are removed and the new entry is appended. -/
def addCacheEntry (cache : List CacheEntry) (entry : CacheEntry) : List CacheEntry :=
  cache.filter (fun e => !(e.url == entry.url)) ++ [entry]

/-- hasUrlChanged mirrors hasUrlChanged of src/cache: true when no entry
exists for the url or the stored payload differs by exact string
comparison from the given one. -/
def hasUrlChanged (url : Str) (encodedData : Str) (cache : List CacheEntry) : Bool :=
  match getCacheEntry url cache with
  | none => true
  | some entry => !(entry.encodedData == encodedData)

/-- cacheDup is a record set holding two records for the same url with
different stored payloads; such sets are reachable because loadCache
accepts any JSON array without validating per-url uniqueness. -/
def cacheDup : List CacheEntry :=
  [{ url := ['u'], encodedData := ['a'], imagePath := ['p'], timestamp := 0 },
   { url := ['u'], encodedData := ['b'], imagePath := ['p'], timestamp := 0 }]

/-- QuiverUrl mirrors the QuiverUrl type of src/types; posStart and posEnd
model position.start and position.end. -/
structure QuiverUrl where
  url : Str
  encodedData : Str
  posStart : Nat
  posEnd : Nat
deriving DecidableEq, Repr

/-- replaceUrlWithImageRef mirrors replaceUrlWithImageRef of
src/file-operations: the replacement is the template
[![diagram](imagePath)](url) and content.substring(0, start) and
content.substring(end) are take and drop (JavaScript substring clamps
out-of-range arguments exactly as take and drop do). -/
def replaceUrlWithImageRef (content : Str) (url : QuiverUrl) (imagePath : Str) : Str :=
  let imageRef : Str :=
    "[![diagram](".toList ++ imagePath ++ ")](".toList ++ url.url ++ ")".toList
  content.take url.posStart ++ imageRef ++ content.drop url.posEnd

/-- urlHead is the fixed scheme, host and fragment-key part of the
reference url pattern of src/url-parser. -/
def urlHead : Str := "https://q.uiver.app/#q=".toList

/-- isB64 decides membership in the payload character class of the
pattern: ASCII letters, digits, underscore and hyphen. -/
def isB64 (c : Char) : Bool :=
  c.isAlpha || c.isDigit || c == '_' || c == '-'

/-- dropHead strips an expected leading character sequence, failing on the
first mismatch. -/
def dropHead : Str → Str → Option Str
  | [], cs => some cs
  | _ :: _, [] => none
  | p :: ps, c :: cs => if c = p then dropHead ps cs else none

/-- padsOf models the greedy padding quantifier of the url pattern: it
consumes up to two leading equals signs. -/
def padsOf : Str → Str × Str
  | [] => ([], [])
  | c :: cs =>
    if c = '=' then
      match cs with
      | [] => (['='], [])
      | d :: ds => if d = '=' then (['=', '='], ds) else (['='], d :: ds)
    else ([], c :: cs)

/-- RawMatch records one match of the global url pattern: its start
offset, the base64 run and the padding of the captured payload. -/
structure RawMatch where
  start : Nat
  b64 : Str
  pads : Str
deriving DecidableEq, Repr

/-- urlStr is the whole matched url text. -/
def RawMatch.urlStr (m : RawMatch) : Str := urlHead ++ m.b64 ++ m.pads

/-- payload is the captured group of the match. -/
def RawMatch.payload (m : RawMatch) : Str := m.b64 ++ m.pads

/-- stop is the offset one past the end of the match. -/
def RawMatch.stop (m : RawMatch) : Nat :=
  m.start + urlHead.length + m.b64.length + m.pads.length

/-- matchAt attempts the url pattern at the head of the text: the fixed
head, then a maximal non-empty run of payload characters, then up to two
equals signs.  It returns the run, the padding and the remaining text. -/
def matchAt (cs : Str) : Option (Str × Str × Str) :=
  match dropHead urlHead cs with
  | none => none
  | some rest1 =>
    let run := rest1.takeWhile isB64
    if run.isEmpty then none
    else
      let rest2 := rest1.dropWhile isB64
      let (pads, rest3) := padsOf rest2
      some (run, pads, rest3)

/-- rawScanGo models the exec loop of the global regular expression: at
each position it attempts the pattern, emitting a match and resuming after
its end, or advances one character.  The fuel argument only bounds the
recursion and is always at least the text length. -/
def rawScanGo : Nat → Str → Nat → List RawMatch
  | 0, _, _ => []
  | _ + 1, [], _ => []
  | fuel + 1, c :: cs, pos =>
    match matchAt (c :: cs) with
    | some (run, pads, rest) =>
      { start := pos, b64 := run, pads := pads } ::
        rawScanGo fuel rest (pos + urlHead.length + run.length + pads.length)
    | none => rawScanGo fuel cs (pos + 1)

/-- rawScan lists the matches of the global url pattern from the given
absolute offset, left to right and non-overlapping, exactly as the exec
loop of src/url-parser visits them. -/
def rawScan (cs : Str) (pos : Nat) : List RawMatch := rawScanGo cs.length cs pos

/-- lastLBGo scans for the last occurrence of the two-character sequence
close-bracket open-paren, as String.lastIndexOf does. -/
def lastLBGo : Str → Nat → Option Nat → Option Nat
  | [], _, acc => acc
  | [_], _, acc => acc
  | a :: b :: rest, i, acc =>
    lastLBGo (b :: rest) (i + 1) (if a == ']' && b == '(' then some i else acc)

/-- lastLB gives the index of the last close-bracket open-paren pair. -/
def lastLB (cs : Str) : Option Nat := lastLBGo cs 0 none

/-- isJsSpace models the character class removed by JavaScript
String.prototype.trim. -/
def isJsSpace (c : Char) : Bool :=
  c == ' ' || c == '\t' || c == '\n' || c == '\r' ||
  c == '\x0b' || c == '\x0c' || c == '\u00a0' || c == '\ufeff'

/-- isUrlInLinkSyntax mirrors isUrlInLinkSyntax of src/url-parser: inspect
at most 200 characters before the url, find the last close-bracket
open-paren pair, and report link syntax when only whitespace separates it
from the url. -/
def isUrlInLinkSyntax (content : Str) (urlStart : Nat) : Bool :=
  let beforeUrl := (content.take urlStart).drop (urlStart - 200)
  match lastLB beforeUrl with
  | none => false
  | some i => (beforeUrl.drop (i + 2)).all isJsSpace

/-- searchMatch models the non-global url.match call of parseQuiverUrl:
the first position at which the pattern matches, with its captured run and
padding. -/
def searchMatch : Str → Option (Str × Str)
  | [] => none
  | c :: cs =>
    match matchAt (c :: cs) with
    | some (run, pads, _) => some (run, pads)
    | none => searchMatch cs

/-- parseQuiverUrl mirrors parseQuiverUrl of src/url-parser: re-match the
url string and take the captured group as the encoded payload. -/
def parseQuiverUrl (url : Str) (posStart posEnd : Nat) : Except String QuiverUrl :=
  match searchMatch url with
  | some (run, pads) =>
    .ok { url := url, encodedData := run ++ pads, posStart := posStart, posEnd := posEnd }
  | none => .error "Invalid Quiver URL format"

/-- extractQuiverUrls mirrors extractQuiverUrls of src/url-parser: walk
the global matches in order, skip matches already in link syntax, parse
the rest and drop the ones whose parse fails. -/
def extractQuiverUrls (content : Str) : List QuiverUrl :=
  (rawScan content 0).filterMap (fun m =>
    if isUrlInLinkSyntax content m.start then none
    else
      match parseQuiverUrl m.urlStr m.start m.stop with
      | .ok q => some q
      | .error _ => none)

/-- padsLegal lists the possible shapes of a padding group. -/
def padsLegal (p : Str) : Prop :=
  p = [] ∨ p = ['='] ∨ p = ['=', '=']

/-- precededByLB is the exclusion condition exactly as claim C5 states it:
the occurrence is immediately preceded by the two characters
close-bracket open-paren. -/
def precededByLB (content : Str) (s : Nat) : Bool :=
  2 ≤ s && content.get? (s - 2) == some ']' && content.get? (s - 1) == some '('

/-- cexC5 is a document whose single url occurrence is separated from a
close-bracket open-paren pair by one space: not immediately preceded by
the pair, yet excluded by the 200-character whitespace-tolerant check of
isUrlInLinkSyntax. -/
def cexC5 : Str := "]( https://q.uiver.app/#q=a".toList

/-- Collab bundles the impure collaborators of the pipeline as explicit
oracles: parse is the base64 + JSON.parse transport applied to a payload
string, uid is the sha256-derived unique id of file-operations, rel is
path.relative, renderOk tells whether the render collaborator succeeds in
producing the artifact at a given full path, and now is Date.now. -/
structure Collab where
  parse : Str → Option Json
  uid : DiagramData → Str
  rel : Str → Str → Str
  renderOk : Str → Bool
  now : Nat

/-- pathJoin models path.join for the flat path components the pipeline
joins. -/
def pathJoin (a b : Str) : Str := a ++ '/' :: b

/-- processSingleUrl mirrors processSingleUrl of src/process-url: on a
cache hit (an entry for the url whose stored payload matches and whose
artifact file exists) it returns the cached path with shouldReplace false
and performs no render; otherwise it decodes the payload, derives the
file name contentType-slug-diagram-uid.png, renders into imagesDir (the
artifact file set grows by the full path) and returns the relative path
with shouldReplace true.  A decode or render failure is an error. -/
def processMissUrl (env : Collab) (q : QuiverUrl) (contentType slug : Str)
    (imagesDir markdownDir : Str) (files : List Str) :
    Except String (Str × Bool × List Str) :=
  match decodeQuiverData (env.parse q.encodedData) with
  | .error e => .error e
  | .ok diagramData =>
    let fileName := contentType ++ "-".toList ++ slug ++ "-diagram-".toList
      ++ env.uid diagramData ++ ".png".toList
    let fullPath := pathJoin imagesDir fileName
    if env.renderOk fullPath then
      .ok (env.rel markdownDir fullPath, true, fullPath :: files)
    else .error "Failed to generate image"

/-- processSingleUrl proper: the cache-hit early return guards the miss
path above. -/
def processSingleUrl (env : Collab) (q : QuiverUrl) (contentType slug : Str)
    (cache : List CacheEntry) (imagesDir markdownDir : Str) (files : List Str) :
    Except String (Str × Bool × List Str) :=
  match getCacheEntry q.url cache, hasUrlChanged q.url q.encodedData cache with
  | some entry, false =>
    if files.contains entry.imagePath then .ok (entry.imagePath, false, files)
    else processMissUrl env q contentType slug imagesDir markdownDir files
  | _, _ => processMissUrl env q contentType slug imagesDir markdownDir files

/-- ProcState is the orchestrator's per-run accumulator: document text,
cache record set, generated image list and the artifact file set. -/
structure ProcState where
  content : Str
  cache : List CacheEntry
  generatedImages : List Str
  files : List Str
deriving DecidableEq, Repr

/-- processStep is the body of the per-match reduce of processMarkdownFile:
process one url against the current state; when shouldReplace holds, splice
the replacement at the match span, add the cache record and log the image;
on a cache hit the state is returned untouched.  An error propagates. -/
def processStep (env : Collab) (contentType slug imagesDir markdownDir : Str)
    (st : ProcState) (q : QuiverUrl) : Except String ProcState :=
  match processSingleUrl env q contentType slug st.cache imagesDir markdownDir st.files with
  | .error e => .error e
  | .ok (imagePath, shouldReplace, files2) =>
    if shouldReplace then
      .ok { content := replaceUrlWithImageRef st.content q imagePath,
            cache := addCacheEntry st.cache
              { url := q.url, encodedData := q.encodedData,
                imagePath := imagePath, timestamp := env.now },
            generatedImages := st.generatedImages ++ [imagePath],
            files := files2 }
    else .ok st

/-- processStepOld is the reduce body of the older process-url revision:
a failure on one match is logged and the match is skipped, leaving the
state unchanged. -/
def processStepOld (env : Collab) (contentType slug imagesDir markdownDir : Str)
    (st : ProcState) (q : QuiverUrl) : ProcState :=
  match processStep env contentType slug imagesDir markdownDir st q with
  | .ok st2 => st2
  | .error _ => st

/-- RunResult is the outcome of one processMarkdownFile run; wroteDoc
records whether the document file was rewritten (the source writes only
when the final content differs from the input). -/
structure RunResult where
  updatedContent : Str
  updatedCache : List CacheEntry
  generatedImages : List Str
  files : List Str
  wroteDoc : Bool
deriving DecidableEq, Repr

/-- processMarkdownFile mirrors the older processMarkdownFile revision
(per-match failures skip and continue): extract the matches, return the
input untouched when there are none, otherwise fold the step over the
matches in reverse document order and write the document only when the
content changed. -/
def processMarkdownFile (env : Collab) (contentType slug imagesDir markdownDir : Str)
    (content : Str) (cache : List CacheEntry) (files : List Str) : RunResult :=
  let quiverUrls := extractQuiverUrls content
  if quiverUrls.isEmpty then
    { updatedContent := content, updatedCache := cache, generatedImages := [],
      files := files, wroteDoc := false }
  else
    let finalState := quiverUrls.reverse.foldl
      (fun st q => processStepOld env contentType slug imagesDir markdownDir st q)
      { content := content, cache := cache, generatedImages := [], files := files }
    { updatedContent := finalState.content, updatedCache := finalState.cache,
      generatedImages := finalState.generatedImages, files := finalState.files,
      wroteDoc := finalState.content != content }

/-- processMarkdownFileCur mirrors the current processMarkdownFile
revision (unnamed part 006 sibling): identical to processMarkdownFile
except that its reduce body rethrows after logging, so the first
per-match failure aborts the whole run. -/
def processMarkdownFileCur (env : Collab) (contentType slug imagesDir markdownDir : Str)
    (content : Str) (cache : List CacheEntry) (files : List Str) :
    Except String RunResult :=
  let quiverUrls := extractQuiverUrls content
  if quiverUrls.isEmpty then
    .ok { updatedContent := content, updatedCache := cache, generatedImages := [],
          files := files, wroteDoc := false }
  else
    match quiverUrls.reverse.foldlM
      (fun st q => processStep env contentType slug imagesDir markdownDir st q)
      { content := content, cache := cache, generatedImages := [], files := files } with
    | .error e => .error e
    | .ok finalState =>
      .ok { updatedContent := finalState.content, updatedCache := finalState.cache,
            generatedImages := finalState.generatedImages, files := finalState.files,
            wroteDoc := finalState.content != content }

/-- SaveResult is the outcome of one handleMarkdownSave invocation;
wroteCache records whether saveCache was called. -/
structure SaveResult where
  run : RunResult
  wroteCache : Bool
deriving DecidableEq, Repr

/-- handleMarkdownSave mirrors handleMarkdownSave of src/extension: load
the cache (passed in), run processMarkdownFile, then call saveCache
unconditionally on the run's updated cache. -/
def handleMarkdownSave (env : Collab) (contentType slug imagesDir markdownDir : Str)
    (content : Str) (cache : List CacheEntry) (files : List Str) : SaveResult :=
  { run := processMarkdownFile env contentType slug imagesDir markdownDir content cache files,
    wroteCache := true }

/-- envSimple is a concrete collaborator assignment for witnesses: every
payload is unparseable, renders fail, uid and rel are trivial. -/
def envSimple : Collab :=
  { parse := fun _ => none, uid := fun _ => [], rel := fun _ p => p,
    renderOk := fun _ => false, now := 0 }

/-- envRender is a concrete collaborator assignment whose parse accepts
the one-character payload g as an empty diagram and rejects the rest, and
whose renders always succeed. -/
def envRender : Collab :=
  { parse := fun s => if s = ['g'] then some (.arr [.num 0, .num 0]) else none,
    uid := fun _ => ['u'], rel := fun _ p => p,
    renderOk := fun _ => true, now := 0 }

/-- docC3 is a document holding one raw reference url with payload abc. -/
def docC3 : Str := "see https://q.uiver.app/#q=abc end".toList

/-- entryC3 is a cache record for the url of docC3 with the same payload,
so the match is a cache hit once its artifact file exists. -/
def entryC3 : CacheEntry :=
  { url := urlHead ++ "abc".toList, encodedData := "abc".toList,
    imagePath := ['p'], timestamp := 0 }

/-- envHit is a collaborator assignment under which docC3's match would
render if it were not a cache hit. -/
def envHit : Collab :=
  { parse := fun _ => some (.arr [.num 0, .num 0]), uid := fun _ => ['u'],
    rel := fun _ p => p, renderOk := fun _ => true, now := 0 }

/-- docC8 is a document holding two raw reference urls; with envRender the
left one decodes and renders while the right one fails to decode. -/
def docC8 : Str :=
  ("https://q.uiver.app/#q=g https://q.uiver.app/#q=b").toList

/-- headFree states that the url head occurs nowhere in a string; real
relative artifact paths satisfy it because path joining collapses double
slashes. -/
def headFree (s : Str) : Prop := ∀ j, dropHead urlHead (s.drop j) = none

/-- template is the replacement text spliced for a match:
[![diagram](imagePath)](url). -/
def template (ip url : Str) : Str :=
  "[![diagram](".toList ++ ip ++ ")](".toList ++ url ++ ")".toList

/-- rendPieces renders the document produced by a run: alternating
untouched gaps and matches that are either kept raw or replaced by the
template, followed by a final untouched segment. -/
def rendPieces : List (Str × RawMatch × Option Str) → Str → Str
  | [], tg => tg
  | (gap, m, none) :: ps, tg => gap ++ m.urlStr ++ rendPieces ps tg
  | (gap, m, some ip) :: ps, tg => gap ++ template ip m.urlStr ++ rendPieces ps tg

/-- validHit states that the state holds a cache record for the url whose
stored payload matches and whose artifact file exists: the hit condition
of processSingleUrl. -/
def validHit (u pay : Str) (st : ProcState) : Prop :=
  ∃ e, getCacheEntry u st.cache = some e ∧ e.encodedData = pay ∧
    st.files.contains e.imagePath = true

/-- decodeFails states that decoding the payload fails under the given
collaborators. -/
def decodeFails (env : Collab) (pay : Str) : Prop :=
  ∃ msg, decodeQuiverData (env.parse pay) = .error msg

/-- wsGap states that a gap ends with a close-bracket open-paren pair
followed by whitespace fitting the 200-character window: the situation in
which the following match is classified as already in link syntax. -/
def wsGap (gap : Str) : Prop :=
  ∃ X ws, gap = X ++ ']' :: '(' :: ws ∧ ws.all isJsSpace = true ∧ ws.length + 2 ≤ 200

/-- sepOkP states the padding-boundary conditions under which re-matching
a stored match against a new continuation reproduces the same run and
padding. -/
def sepOkP (pads rest : Str) : Prop :=
  (pads = [] → ∀ c, rest.head? = some c → isB64 c = false ∧ c ≠ '=') ∧
  (pads = ['='] → ∀ c, rest.head? = some c → c ≠ '=')

/-- decompOf states that a text decomposes exactly as the global pattern
scan reports from a given absolute offset: alternating inert gaps (the
pattern fails at each of their offsets) and matches with their shape and
maximality facts, ending in a fully inert tail. -/
def decompOf : Str → Nat → List RawMatch → Prop
  | cs, _, [] => ∀ j, matchAt (cs.drop j) = none
  | cs, pos, m :: ms =>
    ∃ gap rest,
      cs = gap ++ m.urlStr ++ rest ∧
      m.start = pos + gap.length ∧
      (∀ j, j < gap.length → matchAt (cs.drop j) = none) ∧
      m.b64 ≠ [] ∧ m.b64.all isB64 = true ∧ padsLegal m.pads ∧
      (∀ c, (m.pads ++ rest).head? = some c → isB64 c = false) ∧
      (m.pads ≠ ['=', '='] → ∀ c, rest.head? = some c → c ≠ '=') ∧
      decompOf rest m.stop ms

/-- scanFacts collects, piece by piece, everything needed to re-scan the
rendered document: match shapes, inertness of each gap against some
continuation headed by the letter h (the original text), the reason a kept
match is safe on the second run, and the padding boundary against the
rendered continuation. -/
def scanFacts (env : Collab) (stF : ProcState) :
    List (Str × RawMatch × Option Str) → Str → Prop
  | [], tg => ∀ j, matchAt (tg.drop j) = none
  | (gap, m, tag) :: ps, tg =>
    (m.b64 ≠ [] ∧ m.b64.all isB64 = true ∧ padsLegal m.pads) ∧
    (∃ cont0 : Str, cont0.head? = some 'h' ∧
      ∀ j, j < gap.length → matchAt (gap.drop j ++ cont0) = none) ∧
    (match tag with
     | some ip => headFree ip
     | none =>
       (wsGap gap ∨ validHit m.urlStr (m.b64 ++ m.pads) stF ∨
         decodeFails env (m.b64 ++ m.pads)) ∧
       sepOkP m.pads (rendPieces ps tg)) ∧
    scanFacts env stF ps tg

/-- envC2 is a collaborator assignment for the idempotence witness: every
payload parses to the empty diagram, renders succeed, and relative paths
are the single character p. -/
def envC2 : Collab :=
  { parse := fun _ => some (.arr [.num 0, .num 0]), uid := fun _ => ['u'],
    rel := fun _ _ => ['p'], renderOk := fun _ => true, now := 0 }

/-- extractM is the body of extractQuiverUrls applied to an arbitrary match
list: skip the matches already in link syntax of the full document, parse
the rest, drop parse failures. -/
def extractM (full : Str) (ms : List RawMatch) : List QuiverUrl :=
  ms.filterMap (fun m =>
    if isUrlInLinkSyntax full m.start then none
    else
      match parseQuiverUrl m.urlStr m.start m.stop with
      | .ok q => some q
      | .error _ => none)

/-- fname is the image file name generated for a decoded diagram:
contentType-slug-diagram-uid.png. -/
def fname (env : Collab) (contentType slug : Str) (d : DiagramData) : Str :=
  contentType ++ "-".toList ++ slug ++ "-diagram-".toList ++ env.uid d ++ ".png".toList

/-- pairAt states that a close-bracket open-paren pair sits at an index. -/
def pairAt (w : Str) (k : Nat) : Prop :=
  w.get? k = some ']' ∧ w.get? (k + 1) = some '('

/-! ### Round trip of the codec -/

theorem parseEdgeStyle_encodeStyle (st : EdgeStyle) (hne : st ≠ emptyStyle) :
    parseEdgeStyle (some (Json.obj (encodeStyle st))) = some st := by
  obtain ⟨b, h, o⟩ := st
  cases b <;> cases h <;> cases o
  · exact absurd rfl hne
  all_goals rfl

theorem parseNode_encodeNode (n : Node) (i : Nat) (hid : n.id = i) :
    parseNode (Json.arr [Json.num n.x, Json.num n.y, Json.str n.label]) i = .ok n := by
  obtain ⟨nid, nx, ny, nl⟩ := n
  cases hid
  rfl

theorem parseEdge_encodeEdge (e : Edge) (i : Nat) (hid : e.id = i)
    (hlab : e.label ≠ some "") (hsty : e.style ≠ some emptyStyle) :
    parseEdge (encodeEdge e) i = .ok e := by
  obtain ⟨eid, es, et, lab, sty⟩ := e
  cases hid
  cases lab with
  | none =>
    cases sty with
    | none => rfl
    | some st =>
      have hne : st ≠ emptyStyle := fun h => hsty (by rw [h])
      obtain ⟨b, h, o⟩ := st
      cases b <;> cases h <;> cases o
      · exact absurd rfl hne
      all_goals rfl
  | some l =>
    have hl : ¬ (l = "") := fun h => hlab (by rw [h])
    cases sty with
    | none =>
      simp only [encodeEdge, if_neg hl]
      simp [parseEdge, parseEdgeStyle, if_neg hl]
    | some st =>
      have hne : st ≠ emptyStyle := fun h => hsty (by rw [h])
      obtain ⟨b, h, o⟩ := st
      cases b <;> cases h <;> cases o
      · exact absurd rfl hne
      all_goals
        simp only [encodeEdge, if_neg hl]
        simp [parseEdge, parseEdgeStyle, encodeStyle, jget, if_neg hl]

theorem parseItems_nodes (ns : List Node) (i : Nat) (hpos : posIdsNode i ns = true) :
    parseItems parseNode
      (ns.map (fun n => Json.arr [Json.num n.x, Json.num n.y, Json.str n.label])) i
      = .ok ns := by
  induction ns generalizing i with
  | nil => rfl
  | cons n ns ih =>
    rw [posIdsNode, Bool.and_eq_true, beq_iff_eq] at hpos
    obtain ⟨h1, h2⟩ := hpos
    simp only [List.map_cons, parseItems, parseNode_encodeNode n i h1, ih _ h2]
    rfl

theorem parseItems_edges (es : List Edge) (i : Nat) (hpos : posIdsEdge i es = true)
    (hok : ∀ e ∈ es, e.label ≠ some "" ∧ e.style ≠ some emptyStyle) :
    parseItems parseEdge (es.map encodeEdge) i = .ok es := by
  induction es generalizing i with
  | nil => rfl
  | cons e es ih =>
    rw [posIdsEdge, Bool.and_eq_true, beq_iff_eq] at hpos
    obtain ⟨h1, h2⟩ := hpos
    obtain ⟨hl, hs⟩ := hok e (List.mem_cons_self e es)
    have hrest : ∀ x ∈ es, x.label ≠ some "" ∧ x.style ≠ some emptyStyle :=
      fun x hx => hok x (List.mem_cons_of_mem e hx)
    simp only [List.map_cons, parseItems, parseEdge_encodeEdge e i h1 hl hs, ih _ h2 hrest]
    rfl

theorem take_min_eq (l : List α) (m : Nat) : l.take (min m l.length) = l.take m := by
  rcases le_total m l.length with h | h
  · rw [min_eq_left h]
  · rw [min_eq_right h, List.take_of_length_le h, List.take_of_length_le le_rfl]

theorem drop_min_eq (l : List α) (m : Nat) : l.drop (min m l.length) = l.drop m := by
  rcases le_total m l.length with h | h
  · rw [min_eq_left h]
  · rw [min_eq_right h, List.drop_of_length_le h, List.drop_of_length_le le_rfl]

theorem jsIdx_natCast (len n : Nat) : jsIdx len ((n : Nat) : Int) = min n len := by
  have h0 : ¬ (((n : Nat) : Int) < 0) := not_lt.mpr (Int.natCast_nonneg n)
  simp [jsIdx, h0]

theorem jsSlice_nodes (a b : Json) (L : List Json) (n : Nat) :
    jsSlice (a :: b :: L) 2 ((2 + n : Nat) : Int) = L.take n := by
  unfold jsSlice
  rw [show ((2 : Int)) = ((2 : Nat) : Int) by rfl, jsIdx_natCast, jsIdx_natCast,
      take_min_eq]
  have h2 : min 2 (a :: b :: L).length = 2 := by
    simp [List.length_cons]
  rw [h2, Nat.add_comm 2 n]
  rfl

theorem jsSliceFrom_edges (a b : Json) (L : List Json) (n : Nat) :
    jsSliceFrom (a :: b :: L) ((2 + n : Nat) : Int) = L.drop n := by
  unfold jsSliceFrom
  rw [jsIdx_natCast, drop_min_eq, Nat.add_comm 2 n]
  rfl
  
theorem decode_encode_aux (nodes : List Node) (edges : List Edge)
    (hn : posIdsNode 0 nodes = true) (he : posIdsEdge 0 edges = true)
    (hok : ∀ e ∈ edges, e.label ≠ some "" ∧ e.style ≠ some emptyStyle) :
    decodeQuiverData (some (encodeQuiverData ⟨nodes, edges, none⟩))
      = .ok ⟨nodes, edges, none⟩ := by
  have hjs : (2 + ((nodes.length : Nat) : Int)) = ((2 + nodes.length : Nat) : Int) := by
    push_cast
    ring
  unfold encodeQuiverData decodeQuiverData
  simp only []
  rw [if_neg (by simp [List.length_cons])]
  simp only [List.get?_cons_succ, List.get?_cons_zero]
  rw [hjs, jsSlice_nodes, jsSliceFrom_edges,
      show (List.map (fun n => Json.arr [Json.num n.x, Json.num n.y, Json.str n.label]) nodes ++
        List.map encodeEdge edges).take nodes.length
        = List.map (fun n => Json.arr [Json.num n.x, Json.num n.y, Json.str n.label]) nodes by
        rw [show nodes.length
              = (List.map (fun n => Json.arr [Json.num n.x, Json.num n.y, Json.str n.label]) nodes).length
            by simp]
        exact List.take_left _ _,
      show (List.map (fun n => Json.arr [Json.num n.x, Json.num n.y, Json.str n.label]) nodes ++
        List.map encodeEdge edges).drop nodes.length = List.map encodeEdge edges by
        rw [show nodes.length
              = (List.map (fun n => Json.arr [Json.num n.x, Json.num n.y, Json.str n.label]) nodes).length
            by simp]
        exact List.drop_left _ _,
      parseItems_nodes nodes 0 hn, parseItems_edges edges 0 he hok]
  rfl



theorem parseNode_isOk (j : Json) (i : Nat) : (parseNode j i).isOk = goodNode j := by
  cases j <;> try rfl
  rename_i xs
  simp only [parseNode, goodNode]
  rcases xs.get? 0 with _ | (_ | b0 | q0 | s0 | l0 | f0) <;>
    rcases xs.get? 1 with _ | (_ | b1 | q1 | s1 | l1 | f1) <;>
    try rfl
  rcases xs.get? 2 with _ | (_ | b2 | q2 | s2 | l2 | f2) <;> rfl

theorem parseEdge_isOk (j : Json) (i : Nat) : (parseEdge j i).isOk = goodEdge j := by
  cases j <;> try rfl
  rename_i xs
  simp only [parseEdge, goodEdge]
  rcases xs.get? 0 with _ | (_ | b0 | q0 | s0 | l0 | f0) <;>
    rcases xs.get? 1 with _ | (_ | b1 | q1 | s1 | l1 | f1) <;>
    try rfl
  rcases xs.get? 2 with _ | (_ | b2 | q2 | s2 | l2 | f2) <;> rfl

theorem parseItems_isOk (f : Json → Nat → Except String α) (good : Json → Bool)
    (hfg : ∀ j i, (f j i).isOk = good j) (l : List Json) (i : Nat) :
    (parseItems f l i).isOk = l.all good := by
  induction l generalizing i with
  | nil => rfl
  | cons j js ih =>
    simp only [parseItems, List.all_cons, ← hfg j i, ← ih (i + 1)]
    cases hf : f j i <;> cases hp : parseItems f js (i + 1) <;> rfl

/-- C7 (counterexample): the payload cexC7 has an edge with numeric source
and target and a well-typed node segment, so the failure condition listed
by the claim does not hold, yet decodeQuiverData fails on it because the
edge label slot holds a number. -/
theorem decode_error_conditions_cex :
    (decodeQuiverData cexC7).isOk = false ∧ specDecodeFails cexC7 = false := by
  decide

/-- C7 (amended): decodeQuiverData succeeds exactly when the payload
parses to an array of length at least 2 whose element 1 is a number, every
node-segment element is a [number, number, string] triple, and every
edge-segment element is an array with numeric source and target whose
label slot, when occupied, holds a string.  Every failure is surfaced as a
DecodeError with tag decode-error. -/
theorem decode_error_conditions (p : Option Json) :
    (decodeQuiverData p).isOk = decodeOk p := by
  cases p with
  | none => rfl
  | some j =>
    cases j <;> try rfl
    rename_i xs
    simp only [decodeQuiverData, decodeOk]
    by_cases hl : xs.length < 2
    · rw [if_pos hl, if_pos hl]
      rfl
    · rw [if_neg hl, if_neg hl]
      rcases xs.get? 1 with _ | (_ | b1 | nc | s1 | l1 | f1) <;> try rfl
      have hbind :
          ∀ (A : Except String (List Node)) (B : Except String (List Edge)),
            (do
              let nodes ← A
              let edges ← B
              Except.ok ({ nodes := nodes, edges := edges, metadata := none } :
                DiagramData)).isOk = (A.isOk && B.isOk) := by
        intro A B
        cases A <;> cases B <;> rfl
      rw [hbind, parseItems_isOk parseNode goodNode parseNode_isOk,
          parseItems_isOk parseEdge goodEdge parseEdge_isOk]

/-- C1: for every well-formed diagram graph g (ids positional as the data
model assigns them, present labels non-empty, present styles non-empty),
decoding the result of encoding g yields a graph whose node and edge lists
are exactly those of g: every field value is identical and optional fields
absent in g stay absent.  The metadata block is not part of the wire
format, so the decoded graph carries none. -/
theorem decode_encode_roundtrip (g : DiagramData) (h : wellFormed g = true) :
    decodeQuiverData (some (encodeQuiverData g))
      = .ok { nodes := g.nodes, edges := g.edges, metadata := none } := by
  obtain ⟨nodes, edges, md⟩ := g
  simp only [wellFormed, Bool.and_eq_true] at h
  obtain ⟨⟨⟨hv, hn⟩, he⟩, hall⟩ := h
  have hok : ∀ e ∈ edges, e.label ≠ some "" ∧ e.style ≠ some emptyStyle := by
    intro e hme
    have := List.all_eq_true.mp hall e hme
    simp only [Bool.and_eq_true, Bool.not_eq_true', beq_eq_false_iff_ne, ne_eq] at this
    exact this
  exact decode_encode_aux nodes edges hn he hok

/-- Witness for C1 at the concrete graph gEx: it is well formed and it
round-trips. -/
theorem decode_encode_roundtrip_witness :
    wellFormed gEx = true ∧
      decodeQuiverData (some (encodeQuiverData gEx))
        = .ok { nodes := gEx.nodes, edges := gEx.edges, metadata := none } :=
  ⟨by decide, decode_encode_roundtrip gEx (by decide)⟩

theorem drop2_take_cons (v : Json) (rest : List Json) (b : Nat) :
    ((v :: rest).take b).drop 2 = (rest.take (b - 1)).drop 1 := by
  cases b with
  | zero => rfl
  | succ b => rfl

theorem parseItems_numSlot_fails (v : Json) (q : Int) (l : List Json) (i : Nat) :
    ∃ msg, parseItems parseEdge (v :: .num q :: l) i = .error msg := by
  cases h : parseEdge v i with
  | error m => exact ⟨m, by unfold parseItems; rw [h]; rfl⟩
  | ok e =>
    refine ⟨"Edge at index " ++ toString (i + 1) ++ " is not an array", ?_⟩
    unfold parseItems
    rw [h]
    rfl

/-- C10: decodeQuiverData never uses the version element to build a graph:
two payloads whose parsed arrays differ only in the first element decode
to the same graph, or both fail (the comparison is stated on the decoded
graphs via toOption because on malformed payloads with a negative node
count the wrap-around slice can surface the first element in the failure
message); and encodeQuiverData always writes version 0 as the first
element. -/
theorem decode_ignores_version :
    (∀ (v₁ v₂ : Json) (rest : List Json),
       (decodeQuiverData (some (Json.arr (v₁ :: rest)))).toOption
         = (decodeQuiverData (some (Json.arr (v₂ :: rest)))).toOption) ∧
    (∀ g : DiagramData, ∃ tail, encodeQuiverData g = Json.arr (Json.num 0 :: tail)) := by
  constructor
  · intro v₁ v₂ rest
    simp only [decodeQuiverData, List.length_cons]
    by_cases hl : rest.length + 1 < 2
    · rw [if_pos hl, if_pos hl]
    · rw [if_neg hl, if_neg hl]
      simp only [List.get?_cons_succ]
      rcases h1 : rest.get? 0 with _ | j1
      · rfl
      cases j1 <;> try rfl
      rename_i nc
      simp only []
      have hlen : ∀ v : Json, (v :: rest).length = rest.length + 1 := fun _ => rfl
      have h2 : jsIdx (rest.length + 1) 2 = 2 := by
        unfold jsIdx
        rw [if_neg (by omega : ¬ ((2:Int) < 0))]
        rw [show (2:Int).toNat = 2 from rfl]
        omega
      have hnodes : jsSlice (v₁ :: rest) 2 (2 + nc) = jsSlice (v₂ :: rest) 2 (2 + nc) := by
        unfold jsSlice
        rw [hlen v₁, hlen v₂, h2, drop2_take_cons, drop2_take_cons]
      rw [hnodes]
      cases hP : parseItems parseNode (jsSlice (v₂ :: rest) 2 (2 + nc)) 0 with
      | error m => rfl
      | ok ns =>
        unfold jsSliceFrom
        rw [hlen v₁, hlen v₂]
        cases hk : jsIdx (rest.length + 1) (2 + nc) with
        | zero =>
          simp only [List.drop_zero]
          cases rest with
          | nil => simp at h1
          | cons r0 rest2 =>
            have hr0 : r0 = Json.num nc := by
              have : some r0 = some (Json.num nc) := h1
              exact Option.some.inj this
            subst hr0
            obtain ⟨m1, hE1⟩ := parseItems_numSlot_fails v₁ nc rest2 0
            obtain ⟨m2, hE2⟩ := parseItems_numSlot_fails v₂ nc rest2 0
            rw [hE1, hE2]
            rfl
        | succ j =>
          rw [List.drop_succ_cons, List.drop_succ_cons]
  · intro g
    exact ⟨_, rfl⟩

/-- C6 (counterexample): on a record set holding two records for the same
url, changed is decided against the first record only, so it returns true
even though a record with the given payload exists. -/
theorem hasUrlChanged_iff_cex :
    ¬ ((hasUrlChanged ['u'] ['b'] cacheDup = false) ↔
       ∃ e ∈ cacheDup, e.url = ['u'] ∧ e.encodedData = ['b']) := by
  decide

/-- C6 (amended): on record sets holding at most one record per url (the
invariant of the data model, maintained by addCacheEntry but not enforced
by loadCache), hasUrlChanged url payload records is false exactly when a
record for url exists whose stored payload equals payload by exact string
equality. -/
theorem hasUrlChanged_iff (url payload : Str) (cache : List CacheEntry)
    (huniq : cache.Pairwise (fun a b => a.url ≠ b.url)) :
    hasUrlChanged url payload cache = false ↔
      ∃ e ∈ cache, e.url = url ∧ e.encodedData = payload := by
  induction cache with
  | nil => simp [hasUrlChanged, getCacheEntry]
  | cons e es ih =>
    have htail : es.Pairwise (fun a b => a.url ≠ b.url) := (List.pairwise_cons.mp huniq).2
    have hhead : ∀ x ∈ es, e.url ≠ x.url := (List.pairwise_cons.mp huniq).1
    by_cases he : e.url = url
    · have hfind : getCacheEntry url (e :: es) = some e := by
        unfold getCacheEntry
        rw [List.find?_cons_of_pos _ (by simpa using he)]
      constructor
      · intro h
        refine ⟨e, List.mem_cons_self e es, he, ?_⟩
        unfold hasUrlChanged at h
        rw [hfind] at h
        simpa using h
      · rintro ⟨x, hx, hxu, hxd⟩
        have hxe : x = e := by
          rcases List.mem_cons.mp hx with h | h
          · exact h
          · exact absurd (he.trans hxu.symm) (hhead x h)
        unfold hasUrlChanged
        rw [hfind]
        simp [← hxe, hxd]
    · have hfind : getCacheEntry url (e :: es) = getCacheEntry url es := by
        unfold getCacheEntry
        rw [List.find?_cons_of_neg _ (by simpa using he)]
      unfold hasUrlChanged
      rw [hfind]
      rw [show (match getCacheEntry url es with
            | none => true
            | some entry => !(entry.encodedData == payload)) = hasUrlChanged url payload es
          from rfl]
      rw [ih htail]
      constructor
      · rintro ⟨x, hx, hxu, hxd⟩
        exact ⟨x, List.mem_cons_of_mem e hx, hxu, hxd⟩
      · rintro ⟨x, hx, hxu, hxd⟩
        rcases List.mem_cons.mp hx with h | h
        · exact absurd (h ▸ hxu) he
        · exact ⟨x, h, hxu, hxd⟩

/-- Witness for C6 at a concrete record set with one record per url. -/
theorem hasUrlChanged_iff_witness :
    (hasUrlChanged ['u'] ['a']
        [{ url := ['u'], encodedData := ['a'], imagePath := ['p'], timestamp := 0 }] = false ↔
      ∃ e ∈ [({ url := ['u'], encodedData := ['a'], imagePath := ['p'],
                timestamp := 0 } : CacheEntry)],
        e.url = ['u'] ∧ e.encodedData = ['a']) :=
  hasUrlChanged_iff ['u'] ['a'] _ (by decide)

/-- C9: the splice returns text.take start, then exactly the template
[![diagram](artifactPath)](originalUrl), then text.drop stop; in
particular every character strictly before start and the whole suffix from
stop onward are unchanged, position for position. -/
theorem replaceUrl_splice (content : Str) (q : QuiverUrl) (imagePath : Str)
    (h1 : q.posStart ≤ q.posEnd) (h2 : q.posEnd ≤ content.length) :
    replaceUrlWithImageRef content q imagePath
        = content.take q.posStart
          ++ ("[![diagram](".toList ++ imagePath ++ ")](".toList ++ q.url ++ ")".toList)
          ++ content.drop q.posEnd ∧
      (∀ i, i < q.posStart →
        (replaceUrlWithImageRef content q imagePath).get? i = content.get? i) ∧
      (∀ j, (replaceUrlWithImageRef content q imagePath).get?
          (q.posStart
            + ("[![diagram](".toList ++ imagePath ++ ")](".toList ++ q.url ++ ")".toList).length
            + j)
          = content.get? (q.posEnd + j)) := by
  have hs : q.posStart ≤ content.length := h1.trans h2
  have htk : (content.take q.posStart).length = q.posStart := by
    rw [List.length_take]
    omega
  refine ⟨by simp [replaceUrlWithImageRef], ?_, ?_⟩
  · intro i hi
    simp only [replaceUrlWithImageRef]
    rw [List.append_assoc, List.get?_append (by omega : i < (content.take q.posStart).length)]
    exact List.get?_take hi
  · intro j
    simp only [replaceUrlWithImageRef]
    have hlen : ((content.take q.posStart)
        ++ ("[![diagram](".toList ++ imagePath ++ ")](".toList ++ q.url ++ ")".toList)).length
        = q.posStart
          + ("[![diagram](".toList ++ imagePath ++ ")](".toList ++ q.url ++ ")".toList).length := by
      rw [List.length_append, htk]
    rw [List.get?_append_right (by omega)]
    rw [hlen]
    rw [show q.posStart
          + ("[![diagram](".toList ++ imagePath ++ ")](".toList ++ q.url ++ ")".toList).length + j
          - (q.posStart
            + ("[![diagram](".toList ++ imagePath ++ ")](".toList ++ q.url ++ ")".toList).length)
        = j by omega]
    exact List.get?_drop content q.posEnd j

/-- Witness for C9 at a concrete document and span. -/
theorem replaceUrl_splice_witness :
    replaceUrlWithImageRef "see u end".toList
          { url := ['u'], encodedData := ['d'], posStart := 4, posEnd := 5 } ['p']
        = "see u end".toList.take 4
          ++ ("[![diagram](".toList ++ ['p'] ++ ")](".toList ++ ['u'] ++ ")".toList)
          ++ "see u end".toList.drop 5 ∧
      (∀ i, i < 4 →
        (replaceUrlWithImageRef "see u end".toList
          { url := ['u'], encodedData := ['d'], posStart := 4, posEnd := 5 } ['p']).get? i
          = "see u end".toList.get? i) ∧
      (∀ j, (replaceUrlWithImageRef "see u end".toList
          { url := ['u'], encodedData := ['d'], posStart := 4, posEnd := 5 } ['p']).get?
            (4 + ("[![diagram](".toList ++ ['p'] ++ ")](".toList ++ ['u'] ++ ")".toList).length + j)
          = "see u end".toList.get? (5 + j)) :=
  replaceUrl_splice "see u end".toList
    { url := ['u'], encodedData := ['d'], posStart := 4, posEnd := 5 } ['p']
    (by decide) (by decide)

/-! ### Scanner lemmas and claim C5 -/

theorem dropHead_append (ps t : Str) : dropHead ps (ps ++ t) = some t := by
  induction ps with
  | nil => rfl
  | cons p ps ih => simp [dropHead, ih]

theorem takeWhile_append_all (p : Char → Bool) (l t : Str) (hall : l.all p = true) :
    (l ++ t).takeWhile p = l ++ t.takeWhile p := by
  induction l with
  | nil => rfl
  | cons c cs ih =>
    rw [List.all_cons, Bool.and_eq_true] at hall
    simp [List.takeWhile_cons, hall.1, ih hall.2]

theorem dropWhile_append_all (p : Char → Bool) (l t : Str) (hall : l.all p = true) :
    (l ++ t).dropWhile p = t.dropWhile p := by
  induction l with
  | nil => rfl
  | cons c cs ih =>
    rw [List.all_cons, Bool.and_eq_true] at hall
    simp [List.dropWhile_cons, hall.1, ih hall.2]

theorem takeWhile_nil_of_head (p : Char → Bool) (t : Str)
    (h : ∀ c, t.head? = some c → p c = false) : t.takeWhile p = [] := by
  cases t with
  | nil => rfl
  | cons c cs => simp [List.takeWhile_cons, h c rfl]

theorem dropWhile_nil_of_head (p : Char → Bool) (t : Str)
    (h : ∀ c, t.head? = some c → p c = false) : t.dropWhile p = t := by
  cases t with
  | nil => rfl
  | cons c cs => simp [List.dropWhile_cons, h c rfl]

theorem padsOf_not_pad (s : Str) (h : ∀ c, s.head? = some c → c ≠ '=') :
    padsOf s = ([], s) := by
  cases s with
  | nil => rfl
  | cons c cs => simp [padsOf, h c rfl]

theorem padsOf_one (rest : Str) (h : ∀ c, rest.head? = some c → c ≠ '=') :
    padsOf ('=' :: rest) = (['='], rest) := by
  cases rest with
  | nil => rfl
  | cons c cs => simp [padsOf, h c rfl]

theorem matchAt_of_shape (b64 pads rest : Str) (hb : b64 ≠ [])
    (hall : b64.all isB64 = true) (hp : padsLegal pads)
    (h0 : pads = [] → ∀ c, rest.head? = some c → isB64 c = false ∧ c ≠ '=')
    (h1 : pads = ['='] → ∀ c, rest.head? = some c → c ≠ '=') :
    matchAt (urlHead ++ (b64 ++ (pads ++ rest))) = some (b64, pads, rest) := by
  have hpadhead : ∀ c, (pads ++ rest).head? = some c → isB64 c = false := by
    intro c hc
    rcases hp with h | h | h
    · subst h
      exact ((h0 rfl) c hc).1
    · subst h
      have hce : '=' = c := by simpa using hc
      subst hce
      rfl
    · subst h
      have hce : '=' = c := by simpa using hc
      subst hce
      rfl
  unfold matchAt
  rw [dropHead_append]
  simp only [takeWhile_append_all isB64 b64 (pads ++ rest) hall,
    takeWhile_nil_of_head isB64 (pads ++ rest) hpadhead, List.append_nil,
    dropWhile_append_all isB64 b64 (pads ++ rest) hall,
    dropWhile_nil_of_head isB64 (pads ++ rest) hpadhead]
  rw [if_neg (by simpa [List.isEmpty_iff] using hb)]
  rcases hp with h | h | h
  · subst h
    rw [show ([] : Str) ++ rest = rest from rfl,
        padsOf_not_pad rest (fun c hc => ((h0 rfl) c hc).2)]
  · subst h
    rw [show ['='] ++ rest = '=' :: rest from rfl, padsOf_one rest (h1 rfl)]
  · subst h
    rfl

theorem head_dropWhile_false (p : Char → Bool) (l : Str) (c : Char)
    (h : (l.dropWhile p).head? = some c) : p c = false := by
  induction l with
  | nil => simp at h
  | cons a as ih =>
    rw [List.dropWhile_cons] at h
    by_cases hpa : p a = true
    · rw [if_pos hpa] at h
      exact ih h
    · rw [if_neg hpa] at h
      have : a = c := by simpa using h
      subst this
      simpa using hpa

theorem padsOf_fst_legal (s : Str) : padsLegal (padsOf s).1 := by
  cases s with
  | nil => left; rfl
  | cons c cs =>
    by_cases hc : c = '='
    · cases cs with
      | nil => simp [padsOf, hc, padsLegal]
      | cons d ds =>
        by_cases hd : d = '='
        · simp [padsOf, hc, hd, padsLegal]
        · simp [padsOf, hc, hd, padsLegal]
    · simp [padsOf, hc, padsLegal]

theorem padsOf_decomp (s : Str) : s = (padsOf s).1 ++ (padsOf s).2 := by
  cases s with
  | nil => rfl
  | cons c cs =>
    by_cases hc : c = '='
    · cases cs with
      | nil => simp [padsOf, hc]
      | cons d ds =>
        by_cases hd : d = '='
        · simp [padsOf, hc, hd]
        · simp [padsOf, hc, hd]
    · simp [padsOf, hc]

theorem padsOf_snd_head (s : Str) (h : (padsOf s).1 ≠ ['=', '=']) :
    ∀ c, (padsOf s).2.head? = some c → c ≠ '=' := by
  cases s with
  | nil => intro c hc; simp [padsOf] at hc
  | cons c cs =>
    by_cases hc : c = '='
    · cases cs with
      | nil => intro x hx; simp [padsOf, hc] at hx
      | cons d ds =>
        by_cases hd : d = '='
        · subst hc
          subst hd
          simp [padsOf] at h
        · intro x hx
          simp [padsOf, hc, hd] at hx
          subst hx
          exact hd
    · intro x hx
      simp [padsOf, hc] at hx
      intro hxe
      exact hc (hx.trans hxe)

theorem dropHead_inv (ps : Str) :
    ∀ cs t, dropHead ps cs = some t → cs = ps ++ t := by
  induction ps with
  | nil =>
    intro cs t h
    have : cs = t := by simpa [dropHead] using h
    simpa using this
  | cons p ps ih =>
    intro cs t h
    cases cs with
    | nil => simp [dropHead] at h
    | cons c cs2 =>
      unfold dropHead at h
      by_cases hc : c = p
      · rw [if_pos hc] at h
        subst hc
        rw [List.cons_append]
        exact congrArg _ (ih cs2 t h)
      · rw [if_neg hc] at h
        simp at h

theorem matchAt_inv (cs r p rest : Str) (h : matchAt cs = some (r, p, rest)) :
    cs = urlHead ++ r ++ p ++ rest ∧ r ≠ [] ∧ r.all isB64 = true ∧ padsLegal p ∧
      (∀ c, (p ++ rest).head? = some c → isB64 c = false) ∧
      (p ≠ ['=', '='] → ∀ c, rest.head? = some c → c ≠ '=') := by
  unfold matchAt at h
  cases hdh : dropHead urlHead cs with
  | none =>
    rw [hdh] at h
    simp at h
  | some rest1 =>
    rw [hdh] at h
    replace h : (if (rest1.takeWhile isB64).isEmpty = true then none
        else match padsOf (rest1.dropWhile isB64) with
          | (pads, rest3) => some (rest1.takeWhile isB64, pads, rest3))
        = some (r, p, rest) := h
    by_cases hemp : (rest1.takeWhile isB64).isEmpty
    · rw [if_pos hemp] at h
      simp at h
    · rw [if_neg hemp] at h
      cases hpr : padsOf (rest1.dropWhile isB64) with
      | mk p2 r3 =>
        rw [hpr] at h
        injection h with h1
        injection h1 with hr h2
        injection h2 with hp hrest
        subst hr
        subst hp
        subst hrest
        have hdec : rest1.dropWhile isB64 = p2 ++ r3 := by
          have := padsOf_decomp (rest1.dropWhile isB64)
          rwa [hpr] at this
        have hcs : cs = urlHead ++ rest1 := dropHead_inv urlHead cs rest1 hdh
        refine ⟨?_, ?_, List.all_takeWhile, ?_, ?_, ?_⟩
        · rw [hcs]
          have h1 : rest1 = List.takeWhile isB64 rest1 ++ (p2 ++ r3) := by
            rw [← hdec]
            exact (List.takeWhile_append_dropWhile isB64 rest1).symm
          calc urlHead ++ rest1
              = urlHead ++ (List.takeWhile isB64 rest1 ++ (p2 ++ r3)) := by rw [← h1]
            _ = urlHead ++ List.takeWhile isB64 rest1 ++ p2 ++ r3 := by
                simp [List.append_assoc]
        · simpa [List.isEmpty_iff] using hemp
        · have := padsOf_fst_legal (rest1.dropWhile isB64)
          rwa [hpr] at this
        · intro c hc
          rw [← hdec] at hc
          exact head_dropWhile_false isB64 rest1 c hc
        · intro hne c hc
          have := padsOf_snd_head (rest1.dropWhile isB64) (by rwa [hpr])
          rw [hpr] at this
          exact this c hc

theorem rawScanGo_shape (fuel : Nat) :
    ∀ (cs : Str) (pos : Nat) (m : RawMatch), m ∈ rawScanGo fuel cs pos →
      m.b64 ≠ [] ∧ m.b64.all isB64 = true ∧ padsLegal m.pads := by
  induction fuel with
  | zero => intro cs pos m hm; simp [rawScanGo] at hm
  | succ fuel ih =>
    intro cs pos m hm
    cases cs with
    | nil => simp [rawScanGo] at hm
    | cons c cs2 =>
      rw [rawScanGo] at hm
      cases hma : matchAt (c :: cs2) with
      | none =>
        rw [hma] at hm
        exact ih cs2 (pos + 1) m hm
      | some v =>
        obtain ⟨run, pads, rest⟩ := v
        rw [hma] at hm
        obtain ⟨hdec, hne, hall, hleg, hhead, hsep⟩ :=
          matchAt_inv (c :: cs2) run pads rest hma
        rcases List.mem_cons.mp hm with h | h
        · subst h
          exact ⟨hne, hall, hleg⟩
        · exact ih rest _ m h

theorem rawScan_shape (cs : Str) (pos : Nat) (m : RawMatch) (hm : m ∈ rawScan cs pos) :
    m.b64 ≠ [] ∧ m.b64.all isB64 = true ∧ padsLegal m.pads :=
  rawScanGo_shape cs.length cs pos m hm

theorem searchMatch_url (b64 pads : Str) (hb : b64 ≠ [])
    (hall : b64.all isB64 = true) (hp : padsLegal pads) :
    searchMatch (urlHead ++ b64 ++ pads) = some (b64, pads) := by
  have hma : matchAt (urlHead ++ (b64 ++ (pads ++ []))) = some (b64, pads, []) :=
    matchAt_of_shape b64 pads [] hb hall hp
      (fun _ c hc => by simp at hc) (fun _ c hc => by simp at hc)
  rw [List.append_nil] at hma
  have hshape : urlHead ++ b64 ++ pads
      = 'h' :: ("ttps://q.uiver.app/#q=".toList ++ (b64 ++ pads)) := by
    rfl
  rw [show urlHead ++ (b64 ++ pads) = urlHead ++ b64 ++ pads
        from (List.append_assoc _ _ _).symm] at hma
  rw [hshape, searchMatch]
  rw [show ('h' :: ("ttps://q.uiver.app/#q=".toList ++ (b64 ++ pads)))
        = urlHead ++ b64 ++ pads by
        rw [show ('h' :: ("ttps://q.uiver.app/#q=".toList ++ (b64 ++ pads)))
              = urlHead ++ (b64 ++ pads) from rfl]
        exact (List.append_assoc _ _ _).symm]
  rw [hma]

theorem parseQuiverUrl_of_match (m : RawMatch) (hb : m.b64 ≠ [])
    (hall : m.b64.all isB64 = true) (hp : padsLegal m.pads) :
    parseQuiverUrl m.urlStr m.start m.stop
      = .ok { url := m.urlStr, encodedData := m.b64 ++ m.pads,
              posStart := m.start, posEnd := m.stop } := by
  unfold parseQuiverUrl RawMatch.urlStr
  rw [searchMatch_url m.b64 m.pads hb hall hp]

theorem length_filterMap_eq_filter (l : List α) (f : α → Option β) (p : α → Bool)
    (h : ∀ x ∈ l, (f x).isSome = p x) :
    (l.filterMap f).length = (l.filter p).length := by
  induction l with
  | nil => rfl
  | cons x xs ih =>
    have hx := h x (List.mem_cons_self x xs)
    have hxs := ih (fun y hy => h y (List.mem_cons_of_mem _ hy))
    cases hf : f x with
    | none =>
      rw [hf] at hx
      rw [List.filterMap_cons_none hf, List.filter_cons_of_neg (by simp [← hx]),
        hxs]
    | some b =>
      rw [hf] at hx
      rw [List.filterMap_cons_some hf, List.filter_cons_of_pos (by simp [← hx])]
      simp [hxs]

/-- C5 (counterexample): in the document cexC5 the single pattern
occurrence is preceded by a close-bracket open-paren pair and one space,
so it is not immediately preceded by the pair, yet extractQuiverUrls
excludes it: the returned match count is 0 while the count the claim
predicts is 1. -/
theorem extract_count_cex :
    ¬ ((extractQuiverUrls cexC5).length
        = ((rawScan cexC5 0).filter (fun m => !(precededByLB cexC5 m.start))).length) := by
  decide

/-- C5 (amended): for any document, the number of matches returned by
extractQuiverUrls equals the number of occurrences of the reference url
pattern (as the global pattern scan finds them) that are not classified as
already enclosed in link syntax by isUrlInLinkSyntax, which tolerates any
whitespace run between the close-bracket open-paren pair and the url and
looks back at most 200 characters. -/
theorem extract_count (content : Str) :
    (extractQuiverUrls content).length
      = ((rawScan content 0).filter
          (fun m => !(isUrlInLinkSyntax content m.start))).length := by
  unfold extractQuiverUrls
  apply length_filterMap_eq_filter
  intro m hm
  obtain ⟨hb, hall, hp⟩ := rawScan_shape content 0 m hm
  by_cases hlink : isUrlInLinkSyntax content m.start
  · simp [hlink]
  · simp [if_neg hlink, parseQuiverUrl_of_match m hb hall hp, hlink]

/-! ### Orchestrator claims: cache hit, write conditions, partial failure -/

/-- C3 (amended): when changed(url, payload) is false and the cached
artifact file exists, the match is a CacheHit: no render is performed (the
result carries the cached path, shouldReplace is false and the artifact
file set is unchanged) and the splice is skipped unconditionally, leaving
the whole per-match state untouched even though the document still holds
the raw url at the match span. -/
theorem cacheHit_skips (env : Collab) (q : QuiverUrl)
    (contentType slug imagesDir markdownDir : Str)
    (st : ProcState) (entry : CacheEntry)
    (hentry : getCacheEntry q.url st.cache = some entry)
    (hchg : hasUrlChanged q.url q.encodedData st.cache = false)
    (hfile : st.files.contains entry.imagePath = true) :
    processSingleUrl env q contentType slug st.cache imagesDir markdownDir st.files
        = .ok (entry.imagePath, false, st.files) ∧
      processStepOld env contentType slug imagesDir markdownDir st q = st := by
  have h1 : processSingleUrl env q contentType slug st.cache imagesDir markdownDir st.files
      = .ok (entry.imagePath, false, st.files) := by
    unfold processSingleUrl
    rw [hentry, hchg]
    simp only [if_pos hfile]
  refine ⟨h1, ?_⟩
  unfold processStepOld processStep
  rw [h1]
  rfl

/-- Witness for C3's amended statement at a concrete hit. -/
theorem cacheHit_skips_witness :
    processSingleUrl envHit
        { url := urlHead ++ "abc".toList, encodedData := "abc".toList,
          posStart := 4, posEnd := 30 }
        ['a'] ['s'] [entryC3] ['i'] ['m'] [['p']]
      = .ok (entryC3.imagePath, false, [['p']]) ∧
    processStepOld envHit ['a'] ['s'] ['i'] ['m']
        { content := docC3, cache := [entryC3], generatedImages := [], files := [['p']] }
        { url := urlHead ++ "abc".toList, encodedData := "abc".toList,
          posStart := 4, posEnd := 30 }
      = { content := docC3, cache := [entryC3], generatedImages := [], files := [['p']] } :=
  cacheHit_skips envHit
    { url := urlHead ++ "abc".toList, encodedData := "abc".toList,
      posStart := 4, posEnd := 30 }
    ['a'] ['s'] ['i'] ['m']
    { content := docC3, cache := [entryC3], generatedImages := [], files := [['p']] }
    entryC3 (by decide) (by decide) (by decide)

/-- C3 (counterexample): docC3 still holds its raw url (the scan returns
exactly that one match), the cache and file system make it a hit, and the
run leaves the document text unchanged: the splice is not applied even
though the raw url is present at the match span, contradicting the
claim's skip-splice-unless-raw-url-present reading. -/
theorem cacheHit_noSplice_cex :
    extractQuiverUrls docC3
        = [{ url := urlHead ++ "abc".toList, encodedData := "abc".toList,
             posStart := 4, posEnd := 30 }] ∧
      (processMarkdownFile envHit ['a'] ['s'] ['i'] ['m'] docC3 [entryC3] [['p']]).updatedContent
        = docC3 := by
  decide

/-- C4 (counterexample): on a document with no references, nothing is
rendered, no record changes and the document is not rewritten, yet
handleMarkdownSave still calls saveCache: the cache store file is written
although no record changed. -/
theorem cache_write_cond_cex :
    (handleMarkdownSave envSimple ['a'] ['s'] ['i'] ['m'] "hello".toList [] []).wroteCache
        = true ∧
      (handleMarkdownSave envSimple ['a'] ['s'] ['i'] ['m'] "hello".toList [] []).run.updatedCache
        = ([] : List CacheEntry) ∧
      (handleMarkdownSave envSimple ['a'] ['s'] ['i'] ['m'] "hello".toList [] []).run.wroteDoc
        = false := by
  decide

/-- C4 (amended): after all matches of a run are evaluated, the document
file is written exactly when the resulting text differs from the input
text, while the cache store file is written unconditionally by
handleMarkdownSave, whether or not any record changed. -/
theorem write_conditions (env : Collab) (contentType slug imagesDir markdownDir : Str)
    (content : Str) (cache : List CacheEntry) (files : List Str) :
    ((processMarkdownFile env contentType slug imagesDir markdownDir
        content cache files).wroteDoc = true ↔
      (processMarkdownFile env contentType slug imagesDir markdownDir
        content cache files).updatedContent ≠ content) ∧
    (handleMarkdownSave env contentType slug imagesDir markdownDir
        content cache files).wroteCache = true := by
  refine ⟨?_, rfl⟩
  unfold processMarkdownFile
  by_cases he : (extractQuiverUrls content).isEmpty
  · simp [he]
  · simp only [he, Bool.false_eq_true, if_false, ne_eq, bne_iff_ne]

/-- C8: on docC8 with envRender the rightmost match fails to decode; the
current revision's reduce body rethrows, so the whole run aborts with an
error and the decodable left match is never rendered, while the older
revision skips the failing match and still renders the left one.  This
contradicts the claim, the comment over the current catch block and the
design document's partial-failure rule. -/
theorem processMarkdownFile_abort_cex :
    (processMarkdownFileCur envRender ['a'] ['s'] ['i'] ['m'] docC8 [] []).isOk = false ∧
      (processMarkdownFile envRender ['a'] ['s'] ['i'] ['m']
        docC8 [] []).generatedImages.length = 1 := by
  decide

/-! ### Link-syntax window lemmas -/

theorem isJsSpace_ne_rb (c : Char) (h : isJsSpace c = true) : c ≠ ']' := by
  intro he
  subst he
  simp [isJsSpace] at h

theorem lastLBGo_no_pair (v : Str) :
    ∀ (i : Nat) (acc : Option Nat), (∀ k, ¬ pairAt v k) → lastLBGo v i acc = acc := by
  induction v with
  | nil => intro i acc h; rfl
  | cons a v ih =>
    intro i acc h
    cases v with
    | nil => rfl
    | cons b rest =>
      rw [lastLBGo]
      have hcond : (a == ']' && b == '(') = false := by
        by_contra hc
        have h2 : (a == ']' && b == '(') = true := by
          cases hcc : (a == ']' && b == '(') with
          | false => exact absurd hcc hc
          | true => rfl
        rw [Bool.and_eq_true, beq_iff_eq, beq_iff_eq] at h2
        exact h 0 ⟨by simp [h2.1], by simp [h2.2]⟩
      rw [hcond]
      simp only [Bool.false_eq_true, if_false]
      exact ih (i + 1) acc (fun k => by
        intro hk
        exact h (k + 1) ⟨by simpa using hk.1, by simpa using hk.2⟩)

theorem lastLBGo_pair_front (ws : Str) (hws : ws.all isJsSpace = true) :
    ∀ (i : Nat) (acc : Option Nat), lastLBGo (']' :: '(' :: ws) i acc = some i := by
  intro i acc
  rw [lastLBGo]
  simp only [beq_self_eq_true, Bool.and_self, if_pos]
  apply lastLBGo_no_pair
  intro k hk
  cases k with
  | zero => simp [pairAt] at hk
  | succ k2 =>
    have := hk.1
    simp only [pairAt, List.get?_cons_succ] at this
    have hmem : ']' ∈ ws := List.get?_mem this
    have := List.all_eq_true.mp hws ']' hmem
    simp [isJsSpace] at this

theorem lastLBGo_split (B : Str) (ws : Str) (hws : ws.all isJsSpace = true) :
    ∀ (i : Nat) (acc : Option Nat),
      lastLBGo (B ++ ']' :: '(' :: ws) i acc = some (i + B.length) := by
  induction B with
  | nil =>
    intro i acc
    simpa using lastLBGo_pair_front ws hws i acc
  | cons c B2 ih =>
    intro i acc
    cases B2 with
    | nil =>
      rw [show ([c] ++ ']' :: '(' :: ws) = c :: ']' :: '(' :: ws from rfl, lastLBGo]
      have hcond : (c == ']' && ']' == '(') = false := by simp
      rw [hcond]
      simp only [Bool.false_eq_true, if_false]
      rw [lastLBGo_pair_front ws hws]
      simp
    | cons d B3 =>
      rw [show ((c :: d :: B3) ++ ']' :: '(' :: ws)
            = c :: d :: (B3 ++ ']' :: '(' :: ws) from rfl, lastLBGo]
      rw [show lastLBGo (d :: (B3 ++ ']' :: '(' :: ws)) (i + 1)
            (if (c == ']' && d == '(') = true then some i else acc)
          = lastLBGo ((d :: B3) ++ ']' :: '(' :: ws) (i + 1)
            (if (c == ']' && d == '(') = true then some i else acc) from rfl,
        ih (i + 1)]
      congr 1
      simp only [List.length_cons]
      omega

theorem lastLB_split (B : Str) (ws : Str) (hws : ws.all isJsSpace = true) :
    lastLB (B ++ ']' :: '(' :: ws) = some B.length := by
  unfold lastLB
  simpa using lastLBGo_split B ws hws 0 none

theorem lastLBGo_inv (v : Str) :
    ∀ (i : Nat) (acc : Option Nat) (r : Nat), lastLBGo v i acc = some r →
      acc = some r ∨ (i ≤ r ∧ pairAt v (r - i)) := by
  induction v with
  | nil => intro i acc r h; exact Or.inl h
  | cons a v ih =>
    intro i acc r h
    cases v with
    | nil => exact Or.inl h
    | cons b rest =>
      rw [lastLBGo] at h
      rcases ih (i + 1) _ r h with hacc | ⟨hle, hpair⟩
      · by_cases hcond : (a == ']' && b == '(') = true
        · rw [if_pos hcond] at hacc
          have hri : r = i := (Option.some.inj hacc).symm
          subst hri
          right
          refine ⟨le_refl r, ?_⟩
          rw [Bool.and_eq_true, beq_iff_eq, beq_iff_eq] at hcond
          exact ⟨by simp [Nat.sub_self, hcond.1], by simp [Nat.sub_self, hcond.2]⟩
        · rw [if_neg hcond] at hacc
          exact Or.inl hacc
      · right
        refine ⟨by omega, ?_, ?_⟩
        · have h1 := hpair.1
          rw [show r - i = (r - (i + 1)) + 1 by omega]
          simpa using h1
        · have h2 := hpair.2
          rw [show r - i + 1 = (r - (i + 1) + 1) + 1 by omega]
          simpa using h2

theorem lastLB_pairAt (w : Str) (i : Nat) (h : lastLB w = some i) : pairAt w i := by
  unfold lastLB at h
  rcases lastLBGo_inv w 0 none i h with hacc | ⟨_, hpair⟩
  · exact absurd hacc (by simp)
  · simpa using hpair

theorem linkSyntax_of_split (A ws rest : Str) (hws : ws.all isJsSpace = true)
    (hlen : ws.length + 2 ≤ 200) :
    isUrlInLinkSyntax (A ++ ']' :: '(' :: ws ++ rest) (A.length + 2 + ws.length)
      = true := by
  have hassoc : A ++ ']' :: '(' :: ws ++ rest = (A ++ ']' :: '(' :: ws) ++ rest := by
    simp
  have htake : (A ++ ']' :: '(' :: ws ++ rest).take (A.length + 2 + ws.length)
      = A ++ ']' :: '(' :: ws := by
    rw [hassoc]
    exact List.take_left' (by simp [List.length_append]; omega)
  have hdrop : (A ++ ']' :: '(' :: ws).drop (A.length + 2 + ws.length - 200)
      = A.drop (A.length + 2 + ws.length - 200) ++ ']' :: '(' :: ws :=
    List.drop_append_of_le_length (by omega)
  unfold isUrlInLinkSyntax
  simp only [htake, hdrop, lastLB_split _ ws hws]
  rw [List.drop_append 2]
  exact hws

/-! ### Decomposition of a text by its scan -/

theorem matchAt_nil : matchAt ([] : Str) = none := rfl

theorem urlHead_length : urlHead.length = 23 := rfl

theorem rawScanGo_decomp (fuel : Nat) :
    ∀ (cs : Str) (pos : Nat), cs.length ≤ fuel →
      decompOf cs pos (rawScanGo fuel cs pos) := by
  induction fuel with
  | zero =>
    intro cs pos hl
    have hnil : cs = [] := List.length_eq_zero.mp (Nat.le_zero.mp hl)
    subst hnil
    intro j
    simp [matchAt_nil]
  | succ fuel ih =>
    intro cs pos hl
    cases cs with
    | nil =>
      intro j
      simp [matchAt_nil]
    | cons c cs2 =>
      rw [rawScanGo]
      cases hma : matchAt (c :: cs2) with
      | none =>
        have hd := ih cs2 (pos + 1) (by simpa using hl)
        cases hms : rawScanGo fuel cs2 (pos + 1) with
        | nil =>
          rw [hms] at hd
          intro j
          cases j with
          | zero => exact hma
          | succ j2 => exact hd j2
        | cons m ms =>
          rw [hms] at hd
          obtain ⟨gap, rest, hcs, hst, hgap, hb, hall, hleg, hhd, hsep, hrec⟩ := hd
          refine ⟨c :: gap, rest, ?_, ?_, ?_, hb, hall, hleg, hhd, hsep, hrec⟩
          · rw [show (c :: gap) ++ m.urlStr ++ rest = c :: (gap ++ m.urlStr ++ rest) from rfl,
              ← hcs]
          · rw [hst]
            simp only [List.length_cons]
            omega
          · intro j hj
            cases j with
            | zero => exact hma
            | succ j2 =>
              rw [show (c :: cs2).drop (j2 + 1) = cs2.drop j2 from rfl]
              exact hgap j2 (by simpa using hj)
      | some v =>
        obtain ⟨run, pads, rest⟩ := v
        obtain ⟨hdec, hne, hall, hleg, hhd, hsep⟩ := matchAt_inv (c :: cs2) run pads rest hma
        have hrunpos : 1 ≤ run.length := List.length_pos.mpr hne
        have hlenrest : rest.length ≤ fuel := by
          have hc := congrArg List.length hdec
          simp only [List.length_cons, List.length_append, urlHead_length] at hc
          simp only [List.length_cons] at hl
          omega
        refine ⟨[], rest, ?_, ?_, ?_, hne, hall, hleg, hhd, hsep, ?_⟩
        · rw [hdec]
          simp [RawMatch.urlStr, List.append_assoc]
        · simp
        · intro j hj
          simp at hj
        · exact ih rest _ hlenrest

/-! ### Transfer of pattern failure to a rewritten continuation -/

theorem urlHead_cons : urlHead = 'h' :: "ttps://q.uiver.app/#q=".toList := rfl

theorem matchAt_cons_ne (c : Char) (cs : Str) (h : ¬ (c = 'h')) :
    matchAt (c :: cs) = none := by
  have hdh : dropHead urlHead (c :: cs) = none := by
    rw [urlHead_cons]
    unfold dropHead
    rw [if_neg h]
  unfold matchAt
  rw [hdh]

theorem matchAt_head_ne (s X : Str) (c : Char) (hs : s.head? = some c)
    (h : ¬ (c = 'h')) : matchAt (s ++ X) = none := by
  cases s with
  | nil => simp at hs
  | cons a t =>
    have hac : a = c := by simpa using hs
    subst hac
    exact matchAt_cons_ne a (t ++ X) h

theorem matchAt_none_inv (cs : Str) (h : matchAt cs = none) :
    dropHead urlHead cs = none ∨
      ∃ w, dropHead urlHead cs = some w ∧ w.takeWhile isB64 = [] := by
  unfold matchAt at h
  cases hdh : dropHead urlHead cs with
  | none => exact Or.inl rfl
  | some w =>
    right
    refine ⟨w, rfl, ?_⟩
    rw [hdh] at h
    by_cases hemp : (w.takeWhile isB64).isEmpty
    · exact List.isEmpty_iff.mp hemp
    · exfalso
      replace h : (if (w.takeWhile isB64).isEmpty = true then none
          else match padsOf (w.dropWhile isB64) with
            | (pads, rest3) => some (w.takeWhile isB64, pads, rest3)) = none := h
      rw [if_neg hemp] at h
      cases hpr : padsOf (w.dropWhile isB64) with
      | mk p2 r3 =>
        rw [hpr] at h
        simp at h

theorem matchAt_ne_none_of_head (cs w : Str) (c : Char)
    (hdh : dropHead urlHead cs = some w) (hw : w.head? = some c)
    (hc : isB64 c = true) : ¬ (matchAt cs = none) := by
  intro hma
  rcases matchAt_none_inv cs hma with h | ⟨w2, hdh2, hemp⟩
  · rw [hdh] at h
    exact Option.noConfusion h
  · rw [hdh] at hdh2
    have hww : w = w2 := Option.some.inj hdh2
    subst hww
    cases w with
    | nil => simp at hw
    | cons a t =>
      have hac : a = c := by simpa using hw
      subst hac
      rw [List.takeWhile_cons, if_pos hc] at hemp
      exact List.noConfusion hemp

theorem urlHead_border : ∀ k, 1 ≤ k → k < 23 →
    ¬ (urlHead.drop k = urlHead.take (23 - k)) := by
  intro k h1 h2
  interval_cases k <;> decide

theorem append_eq_head_split (z cont W : Str) (h : z ++ cont = urlHead ++ W) :
    (∃ z2, z = urlHead ++ z2 ∧ z2 ++ cont = W) ∨
    (z.length < urlHead.length ∧ cont = urlHead.drop z.length ++ W) := by
  by_cases hz : urlHead.length ≤ z.length
  · left
    refine ⟨z.drop urlHead.length, ?_, ?_⟩
    · have h1 : z.take urlHead.length = urlHead := by
        have h2 := congrArg (List.take urlHead.length) h
        rwa [List.take_append_of_le_length hz, List.take_left] at h2
      conv_lhs => rw [← List.take_append_drop urlHead.length z]
      rw [h1]
    · have h2 := congrArg (List.drop urlHead.length) h
      rwa [List.drop_append_of_le_length hz, List.drop_left] at h2
  · right
    push_neg at hz
    refine ⟨hz, ?_⟩
    have h2 := congrArg (List.drop z.length) h
    rwa [List.drop_left, List.drop_append_of_le_length (le_of_lt hz)] at h2

theorem dropHead_mid_of_head (k : Nat) (hk : k < urlHead.length) (c : Char)
    (X : Str) (hc : c ∉ urlHead) : dropHead (urlHead.drop k) (c :: X) = none := by
  cases hd : urlHead.drop k with
  | nil =>
    exfalso
    have hlen := congrArg List.length hd
    simp only [List.length_drop, urlHead_length, List.length_nil] at hlen
    rw [urlHead_length] at hk
    omega
  | cons p tail =>
    have hp : p ∈ urlHead := by
      have hmem : p ∈ urlHead.drop k := by
        rw [hd]
        exact List.mem_cons_self p tail
      exact List.mem_of_mem_drop hmem
    have hcp : ¬ (c = p) := fun he => hc (he ▸ hp)
    unfold dropHead
    rw [if_neg hcp]

theorem dropHead_mid_url (k : Nat) (h1 : 1 ≤ k) (h2 : k < urlHead.length)
    (X : Str) : dropHead (urlHead.drop k) (urlHead ++ X) = none := by
  cases hdh : dropHead (urlHead.drop k) (urlHead ++ X) with
  | none => rfl
  | some t =>
    exfalso
    have heq := dropHead_inv (urlHead.drop k) (urlHead ++ X) t hdh
    have hlen : (urlHead.drop k).length = urlHead.length - k := List.length_drop k urlHead
    have htake := congrArg (List.take (urlHead.length - k)) heq
    rw [List.take_append_of_le_length (by rw [urlHead_length]; omega),
      List.take_left' hlen] at htake
    rw [urlHead_length] at htake h2
    exact urlHead_border k h1 h2 htake.symm

theorem matchAt_transfer (z cont0 cont1 : Str) (hz : z ≠ [])
    (h0head : cont0.head? = some 'h')
    (hstrad : ∀ k, 1 ≤ k → k < urlHead.length → dropHead (urlHead.drop k) cont1 = none)
    (h0 : matchAt (z ++ cont0) = none) : matchAt (z ++ cont1) = none := by
  cases hma : matchAt (z ++ cont1) with
  | none => rfl
  | some v =>
    exfalso
    obtain ⟨r, p, rest⟩ := v
    obtain ⟨hdec, hrne, hrall, hleg, hh, hs⟩ := matchAt_inv (z ++ cont1) r p rest hma
    have hdec2 : z ++ cont1 = urlHead ++ (r ++ (p ++ rest)) := by
      rw [hdec]
      simp [List.append_assoc]
    rcases append_eq_head_split z cont1 (r ++ (p ++ rest)) hdec2 with
      ⟨z2, hzdec, hz2⟩ | ⟨hlt, hc1⟩
    · cases r with
      | nil => exact hrne rfl
      | cons rh rt =>
        have hrh : isB64 rh = true := by
          have := List.all_eq_true.mp hrall rh (List.mem_cons_self rh rt)
          simpa using this
        cases z2 with
        | nil =>
          have hdh : dropHead urlHead (z ++ cont0) = some cont0 := by
            rw [hzdec, List.append_nil]
            exact dropHead_append urlHead cont0
          exact matchAt_ne_none_of_head (z ++ cont0) cont0 'h' hdh h0head (by decide) h0
        | cons a z3 =>
          have hz2h : a = rh := by
            have := congrArg List.head? hz2
            simpa using this
          subst hz2h
          have hdh : dropHead urlHead (z ++ cont0) = some ((a :: z3) ++ cont0) := by
            rw [hzdec, List.append_assoc]
            exact dropHead_append urlHead ((a :: z3) ++ cont0)
          exact matchAt_ne_none_of_head (z ++ cont0) ((a :: z3) ++ cont0) a hdh
            (by simp) hrh h0
    · have hk1 : 1 ≤ z.length := List.length_pos.mpr hz
      have hst := hstrad z.length hk1 hlt
      rw [hc1, dropHead_append] at hst
      exact Option.noConfusion hst

theorem matchAt_append_no_h (s X : Str) (j : Nat) (hj : j < s.length)
    (hh : 'h' ∉ s) : matchAt (s.drop j ++ X) = none := by
  cases hd : s.drop j with
  | nil =>
    exfalso
    have := congrArg List.length hd
    simp only [List.length_drop, List.length_nil] at this
    omega
  | cons c tail =>
    have hcs : c ∈ s := List.mem_of_mem_drop (by rw [hd]; exact List.mem_cons_self c tail)
    have hch : ¬ (c = 'h') := fun he => hh (he ▸ hcs)
    rw [List.cons_append]
    exact matchAt_cons_ne c (tail ++ X) hch

theorem matchAt_append_headFree (s : Str) (hs : headFree s) (j : Nat)
    (hj : j < s.length) (c : Char) (X : Str) (hc : c ∉ urlHead) :
    matchAt (s.drop j ++ (c :: X)) = none := by
  cases hma : matchAt (s.drop j ++ (c :: X)) with
  | none => rfl
  | some v =>
    exfalso
    obtain ⟨r, p, rest⟩ := v
    obtain ⟨hdec, hrne, hrall, hleg, hh, hsep⟩ := matchAt_inv _ r p rest hma
    have hdec2 : s.drop j ++ (c :: X) = urlHead ++ (r ++ (p ++ rest)) := by
      rw [hdec]
      simp [List.append_assoc]
    rcases append_eq_head_split _ _ _ hdec2 with ⟨z2, hzdec, hz2⟩ | ⟨hlt, hc1⟩
    · have hfree := hs j
      rw [hzdec, dropHead_append] at hfree
      exact Option.noConfusion hfree
    · have hnone := dropHead_mid_of_head (s.drop j).length hlt c X hc
      rw [hc1, dropHead_append] at hnone
      exact Option.noConfusion hnone

/-! ### Scan traversal building blocks -/

theorem rawScanGo_none (cs : Str) : ∀ (fuel pos : Nat),
    (∀ j, matchAt (cs.drop j) = none) → rawScanGo fuel cs pos = [] := by
  induction cs with
  | nil => intro fuel pos h; cases fuel <;> rfl
  | cons c cs2 ih =>
    intro fuel pos h
    cases fuel with
    | zero => rfl
    | succ f =>
      rw [rawScanGo]
      have h0 := h 0
      rw [List.drop_zero] at h0
      rw [h0]
      exact ih f (pos + 1) (fun j => h (j + 1))

theorem rawScanGo_seg (seg : Str) : ∀ (X : Str) (fuel pos : Nat),
    seg.length ≤ fuel →
    (∀ j, j < seg.length → matchAt (seg.drop j ++ X) = none) →
    rawScanGo fuel (seg ++ X) pos =
      rawScanGo (fuel - seg.length) X (pos + seg.length) := by
  induction seg with
  | nil =>
    intro X fuel pos hfuel hfail
    simp
  | cons c seg2 ih =>
    intro X fuel pos hfuel hfail
    simp only [List.length_cons] at hfuel ⊢
    cases fuel with
    | zero => omega
    | succ f =>
      rw [List.cons_append, rawScanGo]
      have h0 := hfail 0 (by simp)
      rw [List.drop_zero, List.cons_append] at h0
      rw [h0]
      rw [show f + 1 - (seg2.length + 1) = f - seg2.length from by omega,
        show pos + (seg2.length + 1) = pos + 1 + seg2.length from by omega]
      exact ih X f (pos + 1) (by omega)
        (fun j hj => by
          have := hfail (j + 1) (by simp only [List.length_cons]; omega)
          rwa [List.drop_succ_cons] at this)

theorem rawScanGo_match (b64 pads rest : Str) (fuel pos : Nat) (hfuel : 1 ≤ fuel)
    (hma : matchAt (urlHead ++ (b64 ++ (pads ++ rest))) = some (b64, pads, rest)) :
    rawScanGo fuel (urlHead ++ (b64 ++ (pads ++ rest))) pos =
      { start := pos, b64 := b64, pads := pads } ::
        rawScanGo (fuel - 1) rest (pos + urlHead.length + b64.length + pads.length) := by
  cases fuel with
  | zero => omega
  | succ f =>
    rw [show urlHead ++ (b64 ++ (pads ++ rest)) =
      'h' :: ("ttps://q.uiver.app/#q=".toList ++ (b64 ++ (pads ++ rest))) from rfl,
      rawScanGo]
    rw [show matchAt
        ('h' :: ("ttps://q.uiver.app/#q=".toList ++ (b64 ++ (pads ++ rest)))) =
        some (b64, pads, rest) from hma]
    rfl

theorem foldl_const (f : β → α → β) (init : β) :
    ∀ l : List α, (∀ a ∈ l, f init a = init) → l.foldl f init = init := by
  intro l
  induction l with
  | nil => intro h; rfl
  | cons a t ih =>
    intro h
    rw [List.foldl_cons, h a (List.mem_cons_self a t)]
    exact ih (fun x hx => h x (List.mem_cons_of_mem a hx))

theorem extractQuiverUrls_eq (content : Str) :
    extractQuiverUrls content = extractM content (rawScan content 0) := rfl

/-! ### Step evaluation lemmas -/

theorem processMissUrl_decodeFail (env : Collab) (q : QuiverUrl) (ct slug : Str)
    (idir mdir : Str) (files : List Str) (msg : String)
    (hdec : decodeQuiverData (env.parse q.encodedData) = .error msg) :
    processMissUrl env q ct slug idir mdir files = .error msg := by
  unfold processMissUrl
  rw [hdec]

theorem processMissUrl_render (env : Collab) (q : QuiverUrl) (ct slug : Str)
    (idir mdir : Str) (files : List Str) (d : DiagramData)
    (hdec : decodeQuiverData (env.parse q.encodedData) = .ok d)
    (hrok : env.renderOk (pathJoin idir (fname env ct slug d)) = true) :
    processMissUrl env q ct slug idir mdir files =
      .ok (env.rel mdir (pathJoin idir (fname env ct slug d)), true,
        pathJoin idir (fname env ct slug d) :: files) := by
  unfold processMissUrl
  rw [hdec]
  show (if env.renderOk (pathJoin idir (fname env ct slug d)) then
      Except.ok (env.rel mdir (pathJoin idir (fname env ct slug d)), true,
        pathJoin idir (fname env ct slug d) :: files)
    else Except.error "Failed to generate image")
    = Except.ok (env.rel mdir (pathJoin idir (fname env ct slug d)), true,
        pathJoin idir (fname env ct slug d) :: files)
  rw [if_pos hrok]

theorem processMissUrl_renderFail (env : Collab) (q : QuiverUrl) (ct slug : Str)
    (idir mdir : Str) (files : List Str) (d : DiagramData)
    (hdec : decodeQuiverData (env.parse q.encodedData) = .ok d)
    (hrok : env.renderOk (pathJoin idir (fname env ct slug d)) = false) :
    processMissUrl env q ct slug idir mdir files =
      .error "Failed to generate image" := by
  unfold processMissUrl
  rw [hdec]
  show (if env.renderOk (pathJoin idir (fname env ct slug d)) then
      Except.ok (env.rel mdir (pathJoin idir (fname env ct slug d)), true,
        pathJoin idir (fname env ct slug d) :: files)
    else Except.error "Failed to generate image")
    = Except.error "Failed to generate image"
  rw [if_neg (by simp [hrok])]

theorem processSingleUrl_hit (env : Collab) (q : QuiverUrl) (ct slug : Str)
    (cache : List CacheEntry) (idir mdir : Str) (files : List Str) (e : CacheEntry)
    (hce : getCacheEntry q.url cache = some e) (hpay : e.encodedData = q.encodedData)
    (hcont : files.contains e.imagePath = true) :
    processSingleUrl env q ct slug cache idir mdir files
      = .ok (e.imagePath, false, files) := by
  unfold processSingleUrl
  have hch : hasUrlChanged q.url q.encodedData cache = false := by
    unfold hasUrlChanged
    rw [hce]
    simp [hpay]
  rw [hce, hch]
  simp only [if_pos hcont]

theorem processSingleUrl_miss (env : Collab) (q : QuiverUrl) (ct slug : Str)
    (cache : List CacheEntry) (idir mdir : Str) (files : List Str)
    (h : ∀ e, getCacheEntry q.url cache = some e →
      ¬ (e.encodedData = q.encodedData ∧ files.contains e.imagePath = true)) :
    processSingleUrl env q ct slug cache idir mdir files
      = processMissUrl env q ct slug idir mdir files := by
  unfold processSingleUrl
  cases hce : getCacheEntry q.url cache with
  | none => rfl
  | some e =>
    cases hch : hasUrlChanged q.url q.encodedData cache with
    | true => rfl
    | false =>
      cases hcont : files.contains e.imagePath with
      | true =>
        exfalso
        apply h e hce
        refine ⟨?_, hcont⟩
        unfold hasUrlChanged at hch
        rw [hce] at hch
        simpa using hch
      | false =>
        show (if files.contains e.imagePath = true then
            Except.ok (e.imagePath, false, files)
          else processMissUrl env q ct slug idir mdir files)
          = processMissUrl env q ct slug idir mdir files
        rw [if_neg (by intro hc; rw [hcont] at hc; exact Bool.false_ne_true hc)]

theorem stepOld_skip (env : Collab) (ct slug idir mdir : Str) (st : ProcState)
    (q : QuiverUrl)
    (h : validHit q.url q.encodedData st ∨ decodeFails env q.encodedData) :
    processStepOld env ct slug idir mdir st q = st := by
  by_cases hv : validHit q.url q.encodedData st
  · obtain ⟨e, hce, hpay, hcont⟩ := hv
    have h1 := processSingleUrl_hit env q ct slug st.cache idir mdir st.files e hce hpay hcont
    unfold processStepOld processStep
    rw [h1]
    rfl
  · rcases h with hv2 | ⟨msg, hdec⟩
    · exact absurd hv2 hv
    · have h1 : processSingleUrl env q ct slug st.cache idir mdir st.files = .error msg := by
        rw [processSingleUrl_miss env q ct slug st.cache idir mdir st.files
            (fun e hce hand => hv ⟨e, hce, hand.1, hand.2⟩),
          processMissUrl_decodeFail env q ct slug idir mdir st.files msg hdec]
      unfold processStepOld processStep
      rw [h1]

theorem stepOld_replace (env : Collab) (ct slug idir mdir : Str) (st : ProcState)
    (q : QuiverUrl) (d : DiagramData)
    (hmiss : ¬ validHit q.url q.encodedData st)
    (hdec : decodeQuiverData (env.parse q.encodedData) = .ok d)
    (hrok : env.renderOk (pathJoin idir (fname env ct slug d)) = true) :
    processStepOld env ct slug idir mdir st q =
      { content := replaceUrlWithImageRef st.content q
          (env.rel mdir (pathJoin idir (fname env ct slug d))),
        cache := addCacheEntry st.cache
          { url := q.url, encodedData := q.encodedData,
            imagePath := env.rel mdir (pathJoin idir (fname env ct slug d)),
            timestamp := env.now },
        generatedImages := st.generatedImages
          ++ [env.rel mdir (pathJoin idir (fname env ct slug d))],
        files := pathJoin idir (fname env ct slug d) :: st.files } := by
  have h1 : processSingleUrl env q ct slug st.cache idir mdir st.files
      = .ok (env.rel mdir (pathJoin idir (fname env ct slug d)), true,
        pathJoin idir (fname env ct slug d) :: st.files) := by
    rw [processSingleUrl_miss env q ct slug st.cache idir mdir st.files
        (fun e hce hand => hmiss ⟨e, hce, hand.1, hand.2⟩),
      processMissUrl_render env q ct slug idir mdir st.files d hdec hrok]
  unfold processStepOld processStep
  rw [h1]
  rfl

theorem stepOld_noRender (env : Collab) (ct slug idir mdir : Str) (st : ProcState)
    (q : QuiverUrl) (hrender : ∀ p, env.renderOk p = false) :
    processStepOld env ct slug idir mdir st q = st := by
  by_cases hv : validHit q.url q.encodedData st
  · exact stepOld_skip env ct slug idir mdir st q (Or.inl hv)
  · cases hdec : decodeQuiverData (env.parse q.encodedData) with
    | error msg => exact stepOld_skip env ct slug idir mdir st q (Or.inr ⟨msg, hdec⟩)
    | ok d =>
      have h1 : processSingleUrl env q ct slug st.cache idir mdir st.files
          = .error "Failed to generate image" := by
        rw [processSingleUrl_miss env q ct slug st.cache idir mdir st.files
            (fun e hce hand => hv ⟨e, hce, hand.1, hand.2⟩),
          processMissUrl_renderFail env q ct slug idir mdir st.files d hdec (hrender _)]
      unfold processStepOld processStep
      rw [h1]

theorem stepOld_state_shape (env : Collab) (ct slug idir mdir : Str) (st : ProcState)
    (q : QuiverUrl) :
    processStepOld env ct slug idir mdir st q = st ∨
    (¬ validHit q.url q.encodedData st ∧
      ∃ rp fp, processStepOld env ct slug idir mdir st q =
        { content := replaceUrlWithImageRef st.content q rp,
          cache := addCacheEntry st.cache
            { url := q.url, encodedData := q.encodedData,
              imagePath := rp, timestamp := env.now },
          generatedImages := st.generatedImages ++ [rp],
          files := fp :: st.files }) := by
  by_cases hv : validHit q.url q.encodedData st
  · exact Or.inl (stepOld_skip env ct slug idir mdir st q (Or.inl hv))
  · cases hdec : decodeQuiverData (env.parse q.encodedData) with
    | error msg => exact Or.inl (stepOld_skip env ct slug idir mdir st q (Or.inr ⟨msg, hdec⟩))
    | ok d =>
      cases hrok : env.renderOk (pathJoin idir (fname env ct slug d)) with
      | false =>
        left
        have h1 : processSingleUrl env q ct slug st.cache idir mdir st.files
            = .error "Failed to generate image" := by
          rw [processSingleUrl_miss env q ct slug st.cache idir mdir st.files
              (fun e hce hand => hv ⟨e, hce, hand.1, hand.2⟩),
            processMissUrl_renderFail env q ct slug idir mdir st.files d hdec hrok]
        unfold processStepOld processStep
        rw [h1]
      | true =>
        right
        exact ⟨hv, env.rel mdir (pathJoin idir (fname env ct slug d)),
          pathJoin idir (fname env ct slug d),
          stepOld_replace env ct slug idir mdir st q d hv hdec hrok⟩

theorem getCacheEntry_addCacheEntry_ne (u : Str) (cache : List CacheEntry)
    (e : CacheEntry) (h : ¬ (e.url = u)) :
    getCacheEntry u (addCacheEntry cache e) = getCacheEntry u cache := by
  unfold getCacheEntry addCacheEntry
  induction cache with
  | nil =>
    rw [List.filter_nil, List.nil_append,
      @List.find?_cons_of_neg CacheEntry (fun x => x.url == u) e _ (by simp [h]),
      List.find?_nil]
  | cons a t ih =>
    rw [List.filter_cons]
    by_cases ha : (!(a.url == e.url)) = true
    · rw [if_pos ha, List.cons_append]
      by_cases hau : ((fun x : CacheEntry => x.url == u) a) = true
      · rw [@List.find?_cons_of_pos CacheEntry (fun x => x.url == u) a _ hau,
          @List.find?_cons_of_pos CacheEntry (fun x => x.url == u) a _ hau]
      · rw [@List.find?_cons_of_neg CacheEntry (fun x => x.url == u) a _ hau,
          @List.find?_cons_of_neg CacheEntry (fun x => x.url == u) a _ hau]
        exact ih
    · rw [if_neg ha]
      have hae : a.url = e.url := by
        simp only [Bool.not_eq_true', Bool.not_eq_false] at ha
        simpa using ha
      have hau : ¬ (((fun x : CacheEntry => x.url == u) a) = true) := by
        intro hc
        exact h (hae ▸ (by simpa using hc : a.url = u))
      rw [@List.find?_cons_of_neg CacheEntry (fun x => x.url == u) a _ hau]
      exact ih

theorem validHit_fields (u pay : Str) (st st2 : ProcState) (hc : st2.cache = st.cache)
    (hf : st2.files = st.files) (h : validHit u pay st) : validHit u pay st2 := by
  obtain ⟨e, h1, h2, h3⟩ := h
  exact ⟨e, by rw [hc]; exact h1, h2, by rw [hf]; exact h3⟩

theorem validHit_persist (env : Collab) (ct slug idir mdir : Str) (st : ProcState)
    (q : QuiverUrl) (u pay : Str)
    (hq : q.url = urlHead ++ q.encodedData) (hu : u = urlHead ++ pay)
    (h : validHit u pay st) :
    validHit u pay (processStepOld env ct slug idir mdir st q) := by
  rcases stepOld_state_shape env ct slug idir mdir st q with heq | ⟨hnv, rp, fp, heq⟩
  · rw [heq]
    exact h
  · rw [heq]
    obtain ⟨e, hce, hpay, hcont⟩ := h
    have hne : ¬ (q.url = u) := by
      intro he
      apply hnv
      have hpe : q.encodedData = pay := by
        rw [hq, hu] at he
        exact List.append_cancel_left he
      refine ⟨e, ?_, ?_, hcont⟩
      · rw [he]
        exact hce
      · rw [hpe]
        exact hpay
    refine ⟨e, ?_, hpay, ?_⟩
    · exact (getCacheEntry_addCacheEntry_ne u st.cache
        { url := q.url, encodedData := q.encodedData, imagePath := rp,
          timestamp := env.now } hne).trans hce
    · simp only [List.contains_cons, hcont, Bool.or_true]

theorem scanFacts_persist (env : Collab) (ct slug idir mdir : Str) (st : ProcState)
    (q : QuiverUrl) (hq : q.url = urlHead ++ q.encodedData) :
    ∀ ps tg, scanFacts env st ps tg →
      scanFacts env (processStepOld env ct slug idir mdir st q) ps tg := by
  intro ps
  induction ps with
  | nil => intro tg h; exact h
  | cons piece pstail ih =>
    obtain ⟨gap, m, tag⟩ := piece
    intro tg h
    obtain ⟨hshape, hgap, htag, htail⟩ := h
    refine ⟨hshape, hgap, ?_, ih tg htail⟩
    cases tag with
    | some ip => exact htag
    | none =>
      obtain ⟨hreason, hsep⟩ := htag
      refine ⟨?_, hsep⟩
      rcases hreason with hws | hvh | hdf
      · exact Or.inl hws
      · exact Or.inr (Or.inl (validHit_persist env ct slug idir mdir st q
          m.urlStr (m.b64 ++ m.pads) hq
          (by simp [RawMatch.urlStr, List.append_assoc]) hvh))
      · exact Or.inr (Or.inr hdf)

theorem processMarkdownFile_noop (env : Collab) (ct slug idir mdir : Str)
    (content : Str) (cache : List CacheEntry) (files : List Str)
    (h : ∀ q ∈ extractQuiverUrls content,
      processStepOld env ct slug idir mdir
        { content := content, cache := cache, generatedImages := [], files := files } q
        = { content := content, cache := cache, generatedImages := [], files := files }) :
    processMarkdownFile env ct slug idir mdir content cache files =
      { updatedContent := content, updatedCache := cache, generatedImages := [],
        files := files, wroteDoc := false } := by
  unfold processMarkdownFile
  by_cases he : (extractQuiverUrls content).isEmpty
  · rw [if_pos he]
  · rw [if_neg he]
    rw [foldl_const _ _ _ (fun q hq => h q (List.mem_reverse.mp hq))]
    simp

/-! ### Second-run scan helpers -/

theorem lenF1 : ("[![diagram](".toList : Str).length = 12 := rfl

theorem lenF2 : (")](".toList : Str).length = 3 := rfl

theorem urlStr_length (m : RawMatch) :
    m.urlStr.length = 23 + m.b64.length + m.pads.length := by
  simp only [RawMatch.urlStr, List.length_append, urlHead_length]

theorem template_length (ip url2 : Str) :
    (template ip url2).length = 16 + ip.length + url2.length := by
  simp only [template, List.length_append, lenF1, lenF2]
  have h1 : (")".toList : Str).length = 1 := rfl
  rw [h1]
  omega

theorem dropHead_mid_T0 (k : Nat) (hk : k < urlHead.length) (ip U : Str) :
    dropHead (urlHead.drop k)
      (("[![diagram](".toList ++ (ip ++ ")](".toList)) ++ U) = none := by
  rw [show ("[![diagram](".toList ++ (ip ++ ")](".toList)) ++ U
      = '[' :: ("![diagram](".toList ++ (ip ++ ")](".toList) ++ U) from by simp]
  exact dropHead_mid_of_head k hk '[' _ (by decide)

theorem matchAt_T0 (ip : Str) (hip : headFree ip) (X : Str) (j : Nat)
    (hj : j < 12 + ip.length + 3) :
    matchAt (("[![diagram](".toList ++ (ip ++ ")](".toList)).drop j ++ X) = none := by
  have hF1 : ("[![diagram](".toList : Str).length = 12 := rfl
  by_cases h1 : j < 12
  · rw [List.drop_append_of_le_length (by rw [hF1]; omega), List.append_assoc]
    exact matchAt_append_no_h "[![diagram](".toList ((ip ++ ")](".toList) ++ X) j
      (by rw [hF1]; omega) (by decide)
  · push_neg at h1
    obtain ⟨j2, rfl⟩ : ∃ j2, j = 12 + j2 := ⟨j - 12, by omega⟩
    rw [show (12 : Nat) + j2 = ("[![diagram](".toList : Str).length + j2 from by
      rw [hF1], List.drop_append]
    by_cases h2 : j2 < ip.length
    · rw [List.drop_append_of_le_length (le_of_lt h2), List.append_assoc]
      exact matchAt_append_headFree ip hip j2 h2 ')' ("](".toList ++ X) (by decide)
    · push_neg at h2
      obtain ⟨j3, rfl⟩ : ∃ j3, j2 = ip.length + j3 := ⟨j2 - ip.length, by omega⟩
      rw [List.drop_append]
      exact matchAt_append_no_h ")](".toList X j3 (by rw [lenF2]; omega) (by decide)

theorem mem_extractM_cons (full : Str) (m : RawMatch) (ms : List RawMatch)
    (q : QuiverUrl) (hq : q ∈ extractM full (m :: ms)) :
    (isUrlInLinkSyntax full m.start = false ∧
      parseQuiverUrl m.urlStr m.start m.stop = .ok q) ∨ q ∈ extractM full ms := by
  unfold extractM at hq ⊢
  rw [List.filterMap_cons] at hq
  by_cases hexcl : isUrlInLinkSyntax full m.start
  · rw [if_pos hexcl] at hq
    exact Or.inr hq
  · rw [if_neg hexcl] at hq
    cases hp : parseQuiverUrl m.urlStr m.start m.stop with
    | error e =>
      rw [hp] at hq
      exact Or.inr hq
    | ok q2 =>
      rw [hp] at hq
      rcases List.mem_cons.mp hq with h | h
      · subst h
        exact Or.inl ⟨by simpa using hexcl, rfl⟩
      · exact Or.inr h

theorem linkSyntax_of_wsGap (PRE1 gap rest : Str) (h : wsGap gap) :
    isUrlInLinkSyntax (PRE1 ++ (gap ++ rest)) (PRE1.length + gap.length) = true := by
  obtain ⟨X, ws, hgap, hwsall, hlen⟩ := h
  have hsplit : PRE1 ++ (gap ++ rest) = (PRE1 ++ X) ++ ']' :: '(' :: ws ++ rest := by
    rw [hgap]
    simp [List.append_assoc]
  have hpos : PRE1.length + gap.length = (PRE1 ++ X).length + 2 + ws.length := by
    have hg := congrArg List.length hgap
    simp only [List.length_append, List.length_cons] at hg ⊢
    omega
  rw [hsplit, hpos]
  exact linkSyntax_of_split (PRE1 ++ X) ws rest hwsall hlen

set_option maxRecDepth 4000 in
theorem linkSyntax_template (A ip rest : Str) :
    isUrlInLinkSyntax ((A ++ ("[![diagram](".toList ++ (ip ++ ")](".toList))) ++ rest)
      (A.length + (15 + ip.length)) = true := by
  have hB : (A ++ ("[![diagram](".toList ++ (ip ++ ")](".toList))) ++ rest
      = (A ++ ("[![diagram](".toList ++ (ip ++ [')']))) ++ [']', '('] ++ rest := by
    rw [show (")](".toList : Str) = ')' :: ']' :: '(' :: [] from rfl]
    simp [List.append_assoc]
  have hpos : A.length + (15 + ip.length)
      = (A ++ ("[![diagram](".toList ++ (ip ++ [')']))).length + 2
        + ([] : Str).length := by
    simp only [List.length_append, lenF1, List.length_cons, List.length_nil]
    omega
  rw [hB, hpos]
  exact linkSyntax_of_split (A ++ ("[![diagram](".toList ++ (ip ++ [')']))) [] rest
    rfl (by decide)

theorem scan_noop (env : Collab) (ct slug idir mdir : Str) (stF : ProcState) :
    ∀ (ps : List (Str × RawMatch × Option Str)) (tg PRE1 : Str) (fuel : Nat),
      scanFacts env stF ps tg →
      stF.content = PRE1 ++ rendPieces ps tg →
      (rendPieces ps tg).length ≤ fuel →
      ∀ q ∈ extractM stF.content (rawScanGo fuel (rendPieces ps tg) PRE1.length),
        processStepOld env ct slug idir mdir stF q = stF := by
  intro ps
  induction ps with
  | nil =>
    intro tg PRE1 fuel hsf htext hfuel q hq
    rw [show rendPieces [] tg = tg from rfl,
      rawScanGo_none tg fuel PRE1.length hsf] at hq
    simp [extractM] at hq
  | cons piece ps2 ih =>
    obtain ⟨gap, m, tag⟩ := piece
    intro tg PRE1 fuel hsf htext hfuel q hq
    obtain ⟨⟨hb, hall, hleg⟩, ⟨cont0, hc0, hgap0⟩, htag, htail⟩ := hsf
    cases tag with
    | none =>
      obtain ⟨hreason, hsep⟩ := htag
      have hrend : rendPieces ((gap, m, none) :: ps2) tg
          = gap ++ (urlHead ++ (m.b64 ++ (m.pads ++ rendPieces ps2 tg))) := by
        show gap ++ m.urlStr ++ rendPieces ps2 tg = _
        simp [RawMatch.urlStr, List.append_assoc]
      rw [hrend] at hq hfuel htext
      simp only [List.length_append, urlHead_length] at hfuel
      have hma : matchAt (urlHead ++ (m.b64 ++ (m.pads ++ rendPieces ps2 tg)))
          = some (m.b64, m.pads, rendPieces ps2 tg) :=
        matchAt_of_shape m.b64 m.pads (rendPieces ps2 tg) hb hall hleg hsep.1 hsep.2
      have hgapin : ∀ j, j < gap.length →
          matchAt (gap.drop j ++ (urlHead ++ (m.b64 ++ (m.pads ++ rendPieces ps2 tg))))
            = none := by
        intro j hj
        refine matchAt_transfer (gap.drop j) cont0 _ ?_ hc0 ?_ (hgap0 j hj)
        · intro he
          have hl := congrArg List.length he
          simp only [List.length_drop, List.length_nil] at hl
          omega
        · intro k hk1 hk2
          exact dropHead_mid_url k hk1 hk2 _
      rw [rawScanGo_seg gap _ fuel PRE1.length (by omega) hgapin,
        rawScanGo_match m.b64 m.pads (rendPieces ps2 tg) (fuel - gap.length)
          (PRE1.length + gap.length) (by omega) hma] at hq
      rcases mem_extractM_cons stF.content _ _ q hq with ⟨hnex, hpq⟩ | htm
      · have hqeq := (parseQuiverUrl_of_match
          ⟨PRE1.length + gap.length, m.b64, m.pads⟩ hb hall hleg).symm.trans hpq
        have hqdef := Except.ok.inj hqeq
        subst hqdef
        rcases hreason with hws | hvh | hdf
        · exfalso
          have hex := linkSyntax_of_wsGap PRE1 gap
            (urlHead ++ (m.b64 ++ (m.pads ++ rendPieces ps2 tg))) hws
          rw [← htext] at hex
          replace hnex : isUrlInLinkSyntax stF.content (PRE1.length + gap.length)
              = false := hnex
          exact Bool.false_ne_true (hnex.symm.trans hex)
        · exact stepOld_skip env ct slug idir mdir stF _ (Or.inl hvh)
        · exact stepOld_skip env ct slug idir mdir stF _ (Or.inr hdf)
      · have hlen2 : (rendPieces ps2 tg).length ≤ fuel - gap.length - 1 := by omega
        have htext2 : stF.content = (PRE1 ++ gap ++ m.urlStr) ++ rendPieces ps2 tg := by
          rw [htext]
          simp [RawMatch.urlStr, List.append_assoc]
        have hpos2 : PRE1.length + gap.length + urlHead.length + m.b64.length
            + m.pads.length = (PRE1 ++ gap ++ m.urlStr).length := by
          simp only [List.length_append, urlStr_length, urlHead_length]
          omega
        rw [hpos2] at htm
        exact ih tg (PRE1 ++ gap ++ m.urlStr) (fuel - gap.length - 1)
          htail htext2 hlen2 q htm
    | some ip =>
      have hrend : rendPieces ((gap, m, some ip) :: ps2) tg
          = gap ++ (("[![diagram](".toList ++ (ip ++ ")](".toList))
              ++ (urlHead ++ (m.b64 ++ (m.pads ++ (')' :: rendPieces ps2 tg))))) := by
        show gap ++ template ip m.urlStr ++ rendPieces ps2 tg = _
        simp [template, RawMatch.urlStr, List.append_assoc]
      rw [hrend] at hq hfuel htext
      simp only [List.length_append, urlHead_length, List.length_cons, lenF1, lenF2]
        at hfuel
      have hT0in : ∀ j, j < ("[![diagram](".toList ++ (ip ++ ")](".toList)).length →
          matchAt ((("[![diagram](".toList ++ (ip ++ ")](".toList)).drop j)
            ++ (urlHead ++ (m.b64 ++ (m.pads ++ (')' :: rendPieces ps2 tg))))) = none := by
        intro j hj
        simp only [List.length_append, lenF1, lenF2] at hj
        exact matchAt_T0 ip htag _ j (by omega)
      have hgapin : ∀ j, j < gap.length →
          matchAt (gap.drop j ++ (("[![diagram](".toList ++ (ip ++ ")](".toList))
            ++ (urlHead ++ (m.b64 ++ (m.pads ++ (')' :: rendPieces ps2 tg)))))) = none := by
        intro j hj
        refine matchAt_transfer (gap.drop j) cont0 _ ?_ hc0 ?_ (hgap0 j hj)
        · intro he
          have hl := congrArg List.length he
          simp only [List.length_drop, List.length_nil] at hl
          omega
        · intro k hk1 hk2
          exact dropHead_mid_T0 k hk2 ip _
      have hma : matchAt (urlHead ++ (m.b64 ++ (m.pads ++ (')' :: rendPieces ps2 tg))))
          = some (m.b64, m.pads, ')' :: rendPieces ps2 tg) := by
        refine matchAt_of_shape m.b64 m.pads _ hb hall hleg ?_ ?_
        · intro hp c hc
          have hcc : ')' = c := Option.some.inj hc
          subst hcc
          exact ⟨by decide, by decide⟩
        · intro hp c hc
          have hcc : ')' = c := Option.some.inj hc
          subst hcc
          decide
      have hT0len : (("[![diagram](".toList ++ (ip ++ ")](".toList)) : Str).length
          = 15 + ip.length := by
        simp only [List.length_append, lenF1, lenF2]
        omega
      have hclose : ∀ j, j < ([')'] : Str).length →
          matchAt (([')'] : Str).drop j ++ rendPieces ps2 tg) = none := by
        intro j hj
        simp only [List.length_cons, List.length_nil] at hj
        cases j with
        | zero => exact matchAt_cons_ne ')' _ (by decide)
        | succ n => omega
      rw [rawScanGo_seg gap _ fuel PRE1.length (by omega) hgapin,
        rawScanGo_seg ("[![diagram](".toList ++ (ip ++ ")](".toList)) _
          (fuel - gap.length) (PRE1.length + gap.length) (by rw [hT0len]; omega) hT0in,
        rawScanGo_match m.b64 m.pads (')' :: rendPieces ps2 tg) _ _
          (by rw [hT0len]; omega) hma,
        show (')' :: rendPieces ps2 tg) = [')'] ++ rendPieces ps2 tg from rfl,
        rawScanGo_seg ([')'] : Str) (rendPieces ps2 tg) _ _
          (by simp only [List.length_cons, List.length_nil]; omega) hclose] at hq
      rcases mem_extractM_cons stF.content _ _ q hq with ⟨hnex, hpq⟩ | htm
      · exfalso
        replace hnex : isUrlInLinkSyntax stF.content (PRE1.length + gap.length
            + ("[![diagram](".toList ++ (ip ++ ")](".toList)).length) = false := hnex
        have hex := linkSyntax_template (PRE1 ++ gap) ip
          (urlHead ++ (m.b64 ++ (m.pads ++ (')' :: rendPieces ps2 tg))))
        have hceq : (PRE1 ++ gap) ++ ("[![diagram](".toList ++ (ip ++ ")](".toList))
            ++ (urlHead ++ (m.b64 ++ (m.pads ++ (')' :: rendPieces ps2 tg))))
            = stF.content := by
          rw [htext]
          simp [List.append_assoc]
        have hpeq : (PRE1 ++ gap).length + (15 + ip.length)
            = PRE1.length + gap.length
              + ("[![diagram](".toList ++ (ip ++ ")](".toList)).length := by
          rw [hT0len]
          simp only [List.length_append]
        rw [hceq, hpeq] at hex
        exact Bool.false_ne_true (hnex.symm.trans hex)
      · have hlen2 : (rendPieces ps2 tg).length
            ≤ fuel - gap.length - ("[![diagram](".toList ++ (ip ++ ")](".toList)).length
              - 1 - ([')'] : Str).length := by
          simp only [List.length_cons, List.length_nil]
          rw [hT0len]
          omega
        have htext2 : stF.content
            = (PRE1 ++ gap ++ template ip m.urlStr) ++ rendPieces ps2 tg := by
          rw [htext]
          simp [template, RawMatch.urlStr, List.append_assoc]
        have hpos2 : PRE1.length + gap.length
            + ("[![diagram](".toList ++ (ip ++ ")](".toList)).length
            + urlHead.length + m.b64.length + m.pads.length + ([')'] : Str).length
            = (PRE1 ++ gap ++ template ip m.urlStr).length := by
          rw [hT0len]
          simp only [List.length_append, List.length_cons, List.length_nil,
            template_length, urlStr_length, urlHead_length]
          omega
        rw [hpos2] at htm
        exact ih tg (PRE1 ++ gap ++ template ip m.urlStr)
          (fuel - gap.length - ("[![diagram](".toList ++ (ip ++ ")](".toList)).length
            - 1 - ([')'] : Str).length) htail htext2 hlen2 q htm

/-! ### Extracting the whitespace-gap shape from a positive link check -/

theorem isB64_not_space (c : Char) (h : isJsSpace c = true) : isB64 c = false := by
  have hmem : c = ' ' ∨ c = '\t' ∨ c = '\n' ∨ c = '\r' ∨ c = '\x0b' ∨ c = '\x0c'
      ∨ c = ' ' ∨ c = '﻿' := by
    simpa [isJsSpace, Bool.or_eq_true, or_assoc] using h
  rcases hmem with h1 | h1 | h1 | h1 | h1 | h1 | h1 | h1 <;> subst h1 <;> rfl

theorem space_ne_eq (c : Char) (h : isJsSpace c = true) : ¬ (c = '=') := by
  intro he
  subst he
  exact Bool.noConfusion h

theorem decomp_pairAt (w : Str) (i : Nat) (h : pairAt w i) :
    w = w.take i ++ ']' :: '(' :: w.drop (i + 2) := by
  obtain ⟨h1, h2⟩ := h
  obtain ⟨hl1, hg1⟩ := List.get?_eq_some.mp h1
  obtain ⟨hl2, hg2⟩ := List.get?_eq_some.mp h2
  have hd1 : w.drop i = ']' :: w.drop (i + 1) := by
    rw [List.drop_eq_get_cons hl1, hg1]
  have hd2 : w.drop (i + 1) = '(' :: w.drop (i + 2) := by
    rw [List.drop_eq_get_cons hl2, hg2]
  conv_lhs => rw [← List.take_append_drop i w]
  rw [hd1, hd2]

theorem urlStr_append_head (m : RawMatch) (X : Str) :
    (m.urlStr ++ X).head? = some 'h' := by
  rw [show m.urlStr ++ X
      = 'h' :: ("ttps://q.uiver.app/#q=".toList ++ (m.b64 ++ (m.pads ++ X))) from by
    simp [RawMatch.urlStr, urlHead_cons, List.append_assoc]]
  rfl

theorem urlStr_last (m : RawMatch) (hb : m.b64 ≠ []) (hall : m.b64.all isB64 = true)
    (hleg : padsLegal m.pads) (A : Str) :
    ∀ c, (A ++ m.urlStr).getLast? = some c → isB64 c = true ∨ c = '=' := by
  intro c hc
  rcases hleg with hp | hp | hp
  · left
    rw [show A ++ m.urlStr = (A ++ urlHead) ++ m.b64 from by
      simp [RawMatch.urlStr, hp, List.append_assoc]] at hc
    rw [List.getLast?_append_of_ne_nil _ hb] at hc
    have hcc := List.all_eq_true.mp hall c (List.mem_of_mem_getLast? hc)
    simpa using hcc
  · right
    rw [show A ++ m.urlStr = (A ++ (urlHead ++ m.b64)) ++ ['='] from by
      simp [RawMatch.urlStr, hp, List.append_assoc]] at hc
    rw [List.getLast?_append_of_ne_nil _ (by simp)] at hc
    exact (Option.some.inj hc).symm
  · right
    rw [show A ++ m.urlStr = (A ++ (urlHead ++ (m.b64 ++ ['=']))) ++ ['='] from by
      simp [RawMatch.urlStr, hp, List.append_assoc]] at hc
    rw [List.getLast?_append_of_ne_nil _ (by simp)] at hc
    exact (Option.some.inj hc).symm

theorem wsGap_of_linkSyntax (PRE gap Z : Str)
    (hpre : ∀ c, PRE.getLast? = some c → isB64 c = true ∨ c = '=')
    (hls : isUrlInLinkSyntax (PRE ++ gap ++ Z) (PRE.length + gap.length) = true) :
    wsGap gap := by
  unfold isUrlInLinkSyntax at hls
  have htake : (PRE ++ gap ++ Z).take (PRE.length + gap.length) = PRE ++ gap := by
    rw [← List.length_append]
    exact List.take_left' rfl
  rw [htake] at hls
  obtain ⟨W, hW⟩ : ∃ W, (PRE ++ gap).drop (PRE.length + gap.length - 200) = W :=
    ⟨_, rfl⟩
  rw [hW] at hls
  replace hls : (match lastLB W with
      | none => false
      | some i => (W.drop (i + 2)).all isJsSpace) = true := hls
  cases hlb : lastLB W with
  | none =>
    rw [hlb] at hls
    exact Bool.noConfusion hls
  | some i =>
    rw [hlb] at hls
    replace hls : (W.drop (i + 2)).all isJsSpace = true := hls
    obtain ⟨ws, hws⟩ : ∃ ws, W.drop (i + 2) = ws := ⟨_, rfl⟩
    rw [hws] at hls
    have hWdec : W = W.take i ++ ']' :: '(' :: ws := by
      rw [← hws]
      exact decomp_pairAt W i (lastLB_pairAt W i hlb)
    have hWlen : W.length ≤ 200 := by
      rw [← hW, List.length_drop, List.length_append]
      omega
    have hwslen : ws.length + 2 ≤ 200 := by
      have hl := congrArg List.length hws
      rw [List.length_drop] at hl
      omega
    obtain ⟨T, hT⟩ :
        ∃ T, (PRE ++ gap).take (PRE.length + gap.length - 200) ++ W.take i = T :=
      ⟨_, rfl⟩
    have hPG : PRE ++ gap = T ++ ']' :: '(' :: ws := by
      rw [← hT, List.append_assoc, ← hWdec, ← hW]
      exact (List.take_append_drop _ _).symm
    have hTlen : T.length + (ws.length + 2) = PRE.length + gap.length := by
      have hc := congrArg List.length hPG
      simp only [List.length_append, List.length_cons] at hc
      omega
    by_cases hsz : ws.length + 2 ≤ gap.length
    · have hdropPRE := congrArg (List.drop PRE.length) hPG
      rw [List.drop_left, List.drop_append_of_le_length (by omega)] at hdropPRE
      exact ⟨T.drop PRE.length, ws, hdropPRE, hls, hwslen⟩
    · exfalso
      push_neg at hsz
      have htakePRE := congrArg (List.take PRE.length) hPG
      rw [List.take_left, List.take_append_eq_append_take,
        List.take_of_length_le (by omega)] at htakePRE
      obtain ⟨S, hS⟩ : ∃ S, (']' :: '(' :: ws).take (PRE.length - T.length) = S :=
        ⟨_, rfl⟩
      rw [hS] at htakePRE
      have hSnil : S ≠ [] := by
        intro he
        rw [he] at hS
        have hl := congrArg List.length hS
        simp only [List.length_take, List.length_cons, List.length_nil] at hl
        omega
      have hlast : PRE.getLast? = some (S.getLast hSnil) := by
        rw [htakePRE, List.getLast?_append_of_ne_nil _ hSnil,
          List.getLast?_eq_getLast S hSnil]
      have hmemS : S.getLast hSnil ∈ S := List.getLast_mem hSnil
      have hmem : S.getLast hSnil ∈ ']' :: '(' :: ws :=
        List.mem_of_mem_take (by rw [hS]; exact hmemS)
      have hchar := hpre _ hlast
      rcases List.mem_cons.mp hmem with he | he2
      · rw [he] at hchar
        rcases hchar with hc | hc
        · exact absurd hc (by decide)
        · exact absurd hc (by decide)
      · rcases List.mem_cons.mp he2 with he | he3
        · rw [he] at hchar
          rcases hchar with hc | hc
          · exact absurd hc (by decide)
          · exact absurd hc (by decide)
        · have hsp : isJsSpace (S.getLast hSnil) = true := by
            have := List.all_eq_true.mp hls _ he3
            simpa using this
          rcases hchar with hc | hc
          · rw [isB64_not_space _ hsp] at hc
            exact Bool.noConfusion hc
          · exact space_ne_eq _ hsp hc

/-! ### The first run renders the document into pieces with scan facts -/

theorem run1_build (env : Collab) (ct slug idir mdir : Str)
    (hrender : ∀ p, env.renderOk p = true)
    (hrel : ∀ a c, headFree (env.rel a c)) (full : Str) :
    ∀ (ms : List RawMatch) (cs PRE : Str) (st0 : ProcState),
      decompOf cs PRE.length ms →
      full = PRE ++ cs →
      st0.content = full →
      (∀ c, PRE.getLast? = some c → isB64 c = true ∨ c = '=') →
      ∃ ps tg,
        ((extractM full ms).foldr
            (fun q st => processStepOld env ct slug idir mdir st q) st0).content
          = PRE ++ rendPieces ps tg ∧
        scanFacts env
          ((extractM full ms).foldr
            (fun q st => processStepOld env ct slug idir mdir st q) st0) ps tg ∧
        (∀ c, (rendPieces ps tg).head? = some c → cs.head? = some c ∨ c = '[') := by
  intro ms
  induction ms with
  | nil =>
    intro cs PRE st0 hdec hfull hcont hpre
    refine ⟨[], cs, ?_, hdec, fun c hc => Or.inl hc⟩
    show st0.content = PRE ++ rendPieces [] cs
    rw [hcont, hfull]
    rfl
  | cons m ms2 ihm =>
    intro cs PRE st0 hdec hfull hcont hpre
    obtain ⟨gap, rest, hcs, hstart, hgap, hb, hall, hleg, hhd, hsep2, hdrec⟩ := hdec
    have hfull2 : full = (PRE ++ gap ++ m.urlStr) ++ rest := by
      rw [hfull, hcs]
      simp [List.append_assoc]
    have hlen2 : (PRE ++ gap ++ m.urlStr).length = m.stop := by
      show (PRE ++ gap ++ m.urlStr).length
        = m.start + urlHead.length + m.b64.length + m.pads.length
      simp only [List.length_append, urlStr_length, urlHead_length]
      omega
    have hdrec2 : decompOf rest (PRE ++ gap ++ m.urlStr).length ms2 := by
      rw [hlen2]
      exact hdrec
    have hpre2 : ∀ c, (PRE ++ gap ++ m.urlStr).getLast? = some c →
        isB64 c = true ∨ c = '=' := fun c hc =>
      urlStr_last m hb hall hleg (PRE ++ gap) c hc
    obtain ⟨ps2, tg, hcont2, hsf2, hhr2⟩ :=
      ihm rest (PRE ++ gap ++ m.urlStr) st0 hdrec2 hfull2 hcont hpre2
    set stF2 := (extractM full ms2).foldr
      (fun q st => processStepOld env ct slug idir mdir st q) st0 with hstF2
    have hgap2 : ∀ j, j < gap.length →
        matchAt (gap.drop j ++ (m.urlStr ++ rest)) = none := by
      intro j hj
      have hx := hgap j hj
      rw [hcs] at hx
      rwa [List.drop_append_of_le_length
          (by simp only [List.length_append]; omega),
        List.drop_append_of_le_length (le_of_lt hj), List.append_assoc] at hx
    have hsepR : sepOkP m.pads (rendPieces ps2 tg) := by
      constructor
      · intro hp c hc
        rcases hhr2 c hc with hrh | hbr
        · refine ⟨?_, ?_⟩
          · apply hhd
            rw [hp]
            simpa using hrh
          · exact hsep2 (by rw [hp]; decide) c hrh
        · subst hbr
          exact ⟨by decide, by decide⟩
      · intro hp c hc
        rcases hhr2 c hc with hrh | hbr
        · exact hsep2 (by rw [hp]; decide) c hrh
        · subst hbr
          decide
    have hhrKeep : ∀ c, (rendPieces ((gap, m, none) :: ps2) tg).head? = some c →
        cs.head? = some c ∨ c = '[' := by
      intro c hc
      left
      rw [hcs]
      cases gap with
      | nil =>
        have h1 : ('h' : Char) = c :=
          Option.some.inj ((urlStr_append_head m (rendPieces ps2 tg)).symm.trans hc)
        rw [← h1]
        exact urlStr_append_head m rest
      | cons g gt =>
        have h2 : ((g :: gt) ++ m.urlStr ++ rendPieces ps2 tg).head? = some g := rfl
        have h1 : g = c := Option.some.inj (h2.symm.trans hc)
        rw [← h1]
        rfl
    have hcontKeep : stF2.content = PRE ++ rendPieces ((gap, m, none) :: ps2) tg := by
      rw [hcont2]
      show (PRE ++ gap ++ m.urlStr) ++ rendPieces ps2 tg
        = PRE ++ (gap ++ m.urlStr ++ rendPieces ps2 tg)
      simp [List.append_assoc]
    have hsfKeep : (wsGap gap ∨ validHit m.urlStr (m.b64 ++ m.pads) stF2 ∨
        decodeFails env (m.b64 ++ m.pads)) →
        scanFacts env stF2 ((gap, m, none) :: ps2) tg := fun hre =>
      ⟨⟨hb, hall, hleg⟩, ⟨m.urlStr ++ rest, urlStr_append_head m rest, hgap2⟩,
        ⟨hre, hsepR⟩, hsf2⟩
    by_cases hexcl : isUrlInLinkSyntax full m.start = true
    · have hfoldeq : extractM full (m :: ms2) = extractM full ms2 := by
        simp only [extractM, List.filterMap_cons, hexcl, if_true]
      have hwsg : wsGap gap := by
        apply wsGap_of_linkSyntax PRE gap (m.urlStr ++ rest) hpre
        have hful3 : PRE ++ gap ++ (m.urlStr ++ rest) = full := by
          rw [hfull, hcs]
          simp [List.append_assoc]
        rw [hful3, ← hstart]
        exact hexcl
      refine ⟨(gap, m, none) :: ps2, tg, ?_, ?_, hhrKeep⟩
      · rw [hfoldeq]
        exact hcontKeep
      · rw [hfoldeq]
        exact hsfKeep (Or.inl hwsg)
    · have hexclF : isUrlInLinkSyntax full m.start = false := by
        simpa using hexcl
      have hfoldeq : extractM full (m :: ms2)
          = ({ url := m.urlStr, encodedData := m.b64 ++ m.pads,
               posStart := m.start, posEnd := m.stop } : QuiverUrl)
            :: extractM full ms2 := by
        simp only [extractM, List.filterMap_cons]
        rw [if_neg hexcl, parseQuiverUrl_of_match m hb hall hleg]
      by_cases hv : validHit m.urlStr (m.b64 ++ m.pads) stF2
      · have hfold2 : (extractM full (m :: ms2)).foldr
            (fun q st => processStepOld env ct slug idir mdir st q) st0 = stF2 := by
          rw [hfoldeq, List.foldr_cons, hstF2]
          exact stepOld_skip env ct slug idir mdir _ _ (Or.inl hv)
        refine ⟨(gap, m, none) :: ps2, tg, ?_, ?_, hhrKeep⟩
        · rw [hfold2]
          exact hcontKeep
        · rw [hfold2]
          exact hsfKeep (Or.inr (Or.inl hv))
      · cases hdq : decodeQuiverData (env.parse (m.b64 ++ m.pads)) with
        | error msg =>
          have hfold2 : (extractM full (m :: ms2)).foldr
              (fun q st => processStepOld env ct slug idir mdir st q) st0 = stF2 := by
            rw [hfoldeq, List.foldr_cons, hstF2]
            exact stepOld_skip env ct slug idir mdir _ _ (Or.inr ⟨msg, hdq⟩)
          refine ⟨(gap, m, none) :: ps2, tg, ?_, ?_, hhrKeep⟩
          · rw [hfold2]
            exact hcontKeep
          · rw [hfold2]
            exact hsfKeep (Or.inr (Or.inr ⟨msg, hdq⟩))
        | ok d =>
          have hstep := stepOld_replace env ct slug idir mdir stF2
            { url := m.urlStr, encodedData := m.b64 ++ m.pads,
              posStart := m.start, posEnd := m.stop } d hv hdq (hrender _)
          have hfold1 : (extractM full (m :: ms2)).foldr
              (fun q st => processStepOld env ct slug idir mdir st q) st0
              = processStepOld env ct slug idir mdir stF2
                { url := m.urlStr, encodedData := m.b64 ++ m.pads,
                  posStart := m.start, posEnd := m.stop } := by
            rw [hfoldeq, List.foldr_cons, hstF2]
          have htk : (stF2.content).take m.start = PRE ++ gap := by
            rw [hcont2, hstart, List.append_assoc (PRE ++ gap),
              ← List.length_append PRE gap]
            exact List.take_left _ _
          have hdp : (stF2.content).drop m.stop = rendPieces ps2 tg := by
            rw [hcont2, ← hlen2]
            exact List.drop_left _ _
          have hcontRep : (processStepOld env ct slug idir mdir stF2
              { url := m.urlStr, encodedData := m.b64 ++ m.pads,
                posStart := m.start, posEnd := m.stop }).content
              = PRE ++ rendPieces
                  ((gap, m, some (env.rel mdir (pathJoin idir (fname env ct slug d))))
                    :: ps2) tg := by
            rw [hstep]
            show stF2.content.take m.start
                ++ ("[![diagram](".toList
                  ++ env.rel mdir (pathJoin idir (fname env ct slug d))
                  ++ ")](".toList ++ m.urlStr ++ ")".toList)
                ++ stF2.content.drop m.stop
              = PRE ++ rendPieces
                  ((gap, m, some (env.rel mdir (pathJoin idir (fname env ct slug d))))
                    :: ps2) tg
            rw [htk, hdp]
            show (PRE ++ gap) ++ ("[![diagram](".toList
                ++ env.rel mdir (pathJoin idir (fname env ct slug d))
                ++ ")](".toList ++ m.urlStr ++ ")".toList) ++ rendPieces ps2 tg
              = PRE ++ (gap
                ++ template (env.rel mdir (pathJoin idir (fname env ct slug d))) m.urlStr
                ++ rendPieces ps2 tg)
            simp [template, List.append_assoc]
          have hhrRep : ∀ c, (rendPieces
              ((gap, m, some (env.rel mdir (pathJoin idir (fname env ct slug d))))
                :: ps2) tg).head? = some c →
              cs.head? = some c ∨ c = '[' := by
            intro c hc
            cases gap with
            | nil =>
              right
              have h2 : (rendPieces
                  (([], m, some (env.rel mdir (pathJoin idir (fname env ct slug d))))
                    :: ps2) tg).head? = some '[' := rfl
              exact (Option.some.inj (h2.symm.trans hc)).symm
            | cons g gt =>
              left
              rw [hcs]
              have h2 : (rendPieces
                  ((g :: gt, m, some (env.rel mdir (pathJoin idir (fname env ct slug d))))
                    :: ps2) tg).head? = some g := rfl
              have h1 : g = c := Option.some.inj (h2.symm.trans hc)
              rw [← h1]
              rfl
          have hsfRep : scanFacts env (processStepOld env ct slug idir mdir stF2
              { url := m.urlStr, encodedData := m.b64 ++ m.pads,
                posStart := m.start, posEnd := m.stop })
              ((gap, m, some (env.rel mdir (pathJoin idir (fname env ct slug d))))
                :: ps2) tg := by
            refine ⟨⟨hb, hall, hleg⟩,
              ⟨m.urlStr ++ rest, urlStr_append_head m rest, hgap2⟩,
              hrel mdir _, ?_⟩
            exact scanFacts_persist env ct slug idir mdir stF2 _
              (by simp [RawMatch.urlStr, List.append_assoc]) ps2 tg hsf2
          refine ⟨(gap, m, some (env.rel mdir (pathJoin idir (fname env ct slug d))))
            :: ps2, tg, ?_, ?_, hhrRep⟩
          · rw [hfold1]
            exact hcontRep
          · rw [hfold1]
            exact hsfRep

/-! ### Assembling the idempotence of the pipeline -/

theorem scanFacts_fields (env : Collab) (st st2 : ProcState)
    (hc : st2.cache = st.cache) (hf : st2.files = st.files) :
    ∀ ps tg, scanFacts env st ps tg → scanFacts env st2 ps tg := by
  intro ps
  induction ps with
  | nil => intro tg h; exact h
  | cons piece ps2 ih =>
    obtain ⟨gap, m, tag⟩ := piece
    intro tg h
    obtain ⟨h1, h2, h3, h4⟩ := h
    refine ⟨h1, h2, ?_, ih tg h4⟩
    cases tag with
    | some ip => exact h3
    | none =>
      obtain ⟨hre, hsep⟩ := h3
      refine ⟨?_, hsep⟩
      rcases hre with hws | hvh | hdf
      · exact Or.inl hws
      · exact Or.inr (Or.inl (validHit_fields _ _ st st2 hc hf hvh))
      · exact Or.inr (Or.inr hdf)

theorem processMarkdownFile_fold (env : Collab) (ct slug idir mdir : Str)
    (content : Str) (cache : List CacheEntry) (files : List Str)
    (hne : (extractQuiverUrls content).isEmpty = false) :
    processMarkdownFile env ct slug idir mdir content cache files =
      { updatedContent := ((extractM content (rawScan content 0)).foldr
          (fun q st => processStepOld env ct slug idir mdir st q)
          { content := content, cache := cache, generatedImages := [],
            files := files }).content,
        updatedCache := ((extractM content (rawScan content 0)).foldr
          (fun q st => processStepOld env ct slug idir mdir st q)
          { content := content, cache := cache, generatedImages := [],
            files := files }).cache,
        generatedImages := ((extractM content (rawScan content 0)).foldr
          (fun q st => processStepOld env ct slug idir mdir st q)
          { content := content, cache := cache, generatedImages := [],
            files := files }).generatedImages,
        files := ((extractM content (rawScan content 0)).foldr
          (fun q st => processStepOld env ct slug idir mdir st q)
          { content := content, cache := cache, generatedImages := [],
            files := files }).files,
        wroteDoc := (((extractM content (rawScan content 0)).foldr
          (fun q st => processStepOld env ct slug idir mdir st q)
          { content := content, cache := cache, generatedImages := [],
            files := files }).content != content) } := by
  simp only [processMarkdownFile, hne, Bool.false_eq_true, if_false]
  rw [extractQuiverUrls_eq, List.foldl_reverse]

theorem headFree_singleton (c : Char) (hc : ¬ (c = 'h')) : headFree [c] := by
  intro j
  cases j with
  | zero =>
    show dropHead urlHead [c] = none
    rw [urlHead_cons]
    unfold dropHead
    rw [if_neg hc]
  | succ n =>
    show dropHead urlHead (([] : Str).drop n) = none
    rw [List.drop_nil]
    rfl

/-- C2: running processMarkdownFile a second time on the output document,
cache and artifact set of a first run changes nothing: the second run's
document text and cache record set equal the first run's and the document
is not rewritten.  The no-intervening-change premise is rendered by two
hypotheses: the render collaborator behaves uniformly across the whole
session (every render attempt succeeds, or every one fails), and the
relative artifact paths spliced into the document never contain the
reference url head (true of path.relative output, which never contains a
double slash).  The content-type, image and markdown directories are
fixed; the slug may differ between the runs. -/
theorem pipeline_idempotent (env : Collab) (ct slug1 slug2 idir mdir : Str)
    (content : Str) (cache : List CacheEntry) (files : List Str) (b : Bool)
    (hrender : ∀ p, env.renderOk p = b)
    (hrel : ∀ a c, headFree (env.rel a c)) :
    (processMarkdownFile env ct slug2 idir mdir
        (processMarkdownFile env ct slug1 idir mdir content cache files).updatedContent
        (processMarkdownFile env ct slug1 idir mdir content cache files).updatedCache
        (processMarkdownFile env ct slug1 idir mdir content cache files).files).updatedContent
      = (processMarkdownFile env ct slug1 idir mdir content cache files).updatedContent ∧
    (processMarkdownFile env ct slug2 idir mdir
        (processMarkdownFile env ct slug1 idir mdir content cache files).updatedContent
        (processMarkdownFile env ct slug1 idir mdir content cache files).updatedCache
        (processMarkdownFile env ct slug1 idir mdir content cache files).files).updatedCache
      = (processMarkdownFile env ct slug1 idir mdir content cache files).updatedCache ∧
    (processMarkdownFile env ct slug2 idir mdir
        (processMarkdownFile env ct slug1 idir mdir content cache files).updatedContent
        (processMarkdownFile env ct slug1 idir mdir content cache files).updatedCache
        (processMarkdownFile env ct slug1 idir mdir content cache files).files).wroteDoc
      = false := by
  cases b with
  | false =>
    have hr1 := processMarkdownFile_noop env ct slug1 idir mdir content cache files
      (fun q hq => stepOld_noRender env ct slug1 idir mdir _ q hrender)
    have hr2 := processMarkdownFile_noop env ct slug2 idir mdir content cache files
      (fun q hq => stepOld_noRender env ct slug2 idir mdir _ q hrender)
    rw [hr1]
    dsimp only
    rw [hr2]
    exact ⟨rfl, rfl, rfl⟩
  | true =>
    by_cases hemp : (extractQuiverUrls content).isEmpty = true
    · have hr1 : processMarkdownFile env ct slug1 idir mdir content cache files
          = { updatedContent := content, updatedCache := cache,
              generatedImages := [], files := files, wroteDoc := false } := by
        unfold processMarkdownFile
        rw [if_pos hemp]
      have hr2 : processMarkdownFile env ct slug2 idir mdir content cache files
          = { updatedContent := content, updatedCache := cache,
              generatedImages := [], files := files, wroteDoc := false } := by
        unfold processMarkdownFile
        rw [if_pos hemp]
      rw [hr1]
      dsimp only
      rw [hr2]
      exact ⟨rfl, rfl, rfl⟩
    · have hne : (extractQuiverUrls content).isEmpty = false := by
        simpa using hemp
      have hdec : decompOf content (([] : Str).length) (rawScan content 0) :=
        rawScanGo_decomp content.length content 0 (le_refl _)
      obtain ⟨ps, tg, hcontF, hsfF, hhrF⟩ :=
        run1_build env ct slug1 idir mdir hrender hrel content
          (rawScan content 0) content []
          { content := content, cache := cache, generatedImages := [], files := files }
          hdec rfl rfl (fun c hc => by simp at hc)
      set stF := (extractM content (rawScan content 0)).foldr
        (fun q st => processStepOld env ct slug1 idir mdir st q)
        { content := content, cache := cache, generatedImages := [], files := files }
        with hstF
      have hc1 : stF.content = rendPieces ps tg := by
        simpa using hcontF
      have hr1 := processMarkdownFile_fold env ct slug1 idir mdir content cache files hne
      have hsteps : ∀ q ∈ extractQuiverUrls stF.content,
          processStepOld env ct slug2 idir mdir
            { content := stF.content, cache := stF.cache, generatedImages := [],
              files := stF.files } q
            = { content := stF.content, cache := stF.cache, generatedImages := [],
                files := stF.files } := by
        intro q hq
        have hscan : rawScan stF.content 0
            = rawScanGo (rendPieces ps tg).length (rendPieces ps tg)
              (([] : Str).length) := by
          rw [hc1]
          rfl
        rw [extractQuiverUrls_eq, hscan] at hq
        exact scan_noop env ct slug2 idir mdir
          { content := stF.content, cache := stF.cache, generatedImages := [],
            files := stF.files } ps tg [] (rendPieces ps tg).length
          (scanFacts_fields env stF
            { content := stF.content, cache := stF.cache, generatedImages := [],
              files := stF.files } rfl rfl ps tg hsfF)
          (show stF.content = [] ++ rendPieces ps tg from hcontF)
          (le_refl _) q hq
      have hr2 := processMarkdownFile_noop env ct slug2 idir mdir
        stF.content stF.cache stF.files hsteps
      rw [hr1]
      dsimp only
      rw [← hstF, hr2]
      exact ⟨rfl, rfl, rfl⟩

/-- Witness: the idempotence theorem applied to the one-reference document
docC3 with always-succeeding collaborators, empty cache and no artifact
files; both hypotheses are discharged concretely. -/
theorem pipeline_idempotent_witness :
    (∀ p, envC2.renderOk p = true) ∧ (∀ a c, headFree (envC2.rel a c)) ∧
    ((processMarkdownFile envC2 ['a'] ['t'] ['i'] ['m']
        (processMarkdownFile envC2 ['a'] ['s'] ['i'] ['m'] docC3 [] []).updatedContent
        (processMarkdownFile envC2 ['a'] ['s'] ['i'] ['m'] docC3 [] []).updatedCache
        (processMarkdownFile envC2 ['a'] ['s'] ['i'] ['m'] docC3 [] []).files).updatedContent
      = (processMarkdownFile envC2 ['a'] ['s'] ['i'] ['m'] docC3 [] []).updatedContent ∧
    (processMarkdownFile envC2 ['a'] ['t'] ['i'] ['m']
        (processMarkdownFile envC2 ['a'] ['s'] ['i'] ['m'] docC3 [] []).updatedContent
        (processMarkdownFile envC2 ['a'] ['s'] ['i'] ['m'] docC3 [] []).updatedCache
        (processMarkdownFile envC2 ['a'] ['s'] ['i'] ['m'] docC3 [] []).files).updatedCache
      = (processMarkdownFile envC2 ['a'] ['s'] ['i'] ['m'] docC3 [] []).updatedCache ∧
    (processMarkdownFile envC2 ['a'] ['t'] ['i'] ['m']
        (processMarkdownFile envC2 ['a'] ['s'] ['i'] ['m'] docC3 [] []).updatedContent
        (processMarkdownFile envC2 ['a'] ['s'] ['i'] ['m'] docC3 [] []).updatedCache
        (processMarkdownFile envC2 ['a'] ['s'] ['i'] ['m'] docC3 [] []).files).wroteDoc
      = false) :=
  ⟨fun p => rfl, fun a c => headFree_singleton 'p' (by decide),
    pipeline_idempotent envC2 ['a'] ['s'] ['t'] ['i'] ['m'] docC3 [] [] true
      (fun p => rfl) (fun a c => headFree_singleton 'p' (by decide))⟩

end Qutils
